import Mathlib

/-!
# Partition / compute / merge kernels of the HPC course programs

Shallow embedding of the three MPI kernels (`char_freq.c`, `count_sort.c`,
`mxv.c`) and the two OpenMP kernels (`char_freq.c`, `count_sort.c`).

Conventions of the embedding.

* C arrays are lists; `a[i] = v` is `List.set a i v`.
* The values of `int` and `long` expressions are integers wrapped to 32 and 64
  bits (`to_int`, `to_long`); `/` on them is the truncating division.  The
  partition bounds of the kernels are the wrapped ones (`start_int`, `end_int`,
  `compute_process_file_size_machine`).  The exact quotients `start`, `end_`,
  `compute_process_file_size` are the reference values of the partitioner
  contract, with which the stored bounds are compared.
* A `for (i = lo; i < hi; i++)` loop is a left fold over `lo, lo+1, .., hi-1`.
* An access whose index is computed from wrapped bounds or from input data is
  checked: the kernel returns `none` when the C program would read or write
  outside a buffer (or read a byte that `fread` did not fill).
* `MPI_Reduce(.., MPI_SUM, ..)` is the element-wise sum over the ranks
  `0 .. np-1` of the send buffers, wrapped to 32 bits for `MPI_INT`; the
  master gets a result only if every rank reaches the collective.
* `char` is signed, `malloc` succeeds for every non-negative size (also 0) and
  fails for a negative `long` converted to `size_t`.
-/

namespace HPC

/-! ## Control flow -/

/-- The loop `for (i = lo; i < hi; i++) s = body i s`. -/
def forLoop {σ : Type} (lo hi : Nat) (body : Nat → σ → σ) (s : σ) : σ :=
  (List.range' lo (hi - lo)).foldl (fun acc i => body i acc) s

/-- The loop `for (i = lo; i < hi; i++)` whose body may fail (out-of-bounds access). -/
def forLoopM {σ : Type} (lo hi : Nat) (body : Nat → σ → Option σ) (s : σ) : Option σ :=
  (List.range' lo (hi - lo)).foldlM (fun acc i => body i acc) s

/-- The loop `for (i = lo; i < hi; i++)` whose `int` bounds may be negative or out of
order: it visits `lo, lo+1, .., hi-1`, no index when `hi ≤ lo`; the body may fail. -/
def forLoopZ {σ : Type} (lo hi : Int) (body : Int → σ → Option σ) (s : σ) : Option σ :=
  (List.range (hi - lo).toNat).foldlM (fun acc (k : Nat) => body (lo + (k : Int)) acc) s

/-! ## Machine integers and the collective -/

/-- The value an integer takes when it is stored in a two's-complement word of `w` bits. -/
def wrap (w : Nat) (x : Int) : Int := (x + 2 ^ (w - 1)) % 2 ^ w - 2 ^ (w - 1)

/-- A value held in a C `int` (32 bits). -/
def to_int (x : Int) : Int := wrap 32 x

/-- A value held in a C `long` (64 bits). -/
def to_long (x : Int) : Int := wrap 64 x

/-- The collective `MPI_Reduce(sendbuf, recvbuf, count, MPI_DOUBLE, MPI_SUM, MASTER, _)`
in exact arithmetic: entry `k` of the receive buffer is the sum over the ranks
`0 .. np-1` of entry `k` of each rank's send buffer. -/
def MPI_Reduce {α : Type} [Add α] [Zero α] (np count : Nat) (sendbuf : Nat → List α) : List α :=
  (List.range count).map (fun k => ((List.range np).map (fun rank => (sendbuf rank).getD k 0)).sum)

/-- The collective `MPI_Reduce(sendbuf, recvbuf, count, MPI_INT, MPI_SUM, MASTER, _)`:
entry `k` of the receive buffer is the sum over the ranks `0 .. np-1` of entry `k` of
each rank's send buffer, held in an `int` (wrapping every partial sum gives the same
value as wrapping the total). -/
def MPI_Reduce_int (np count : Nat) (sendbuf : Nat → List Int) : List Int :=
  (List.range count).map
    (fun k => to_int ((List.range np).map (fun rank => (sendbuf rank).getD k 0)).sum)

/-! ## Partitioner -/

/-- The exact quotient `floor(rank * size / np)`: the reference value of the partitioner
contract for the bound `start`. -/
def start (rank np size : Nat) : Nat := (rank * size) / np

/-- The exact quotient `floor((rank + 1) * size / np)`: the reference value of the
partitioner contract for the bound `end` (a reserved word, hence the underscore). -/
def end_ (rank np size : Nat) : Nat := ((rank + 1) * size) / np

/-- The exact reference values `(start, end, end - start)` for the three results of
`compute_process_file_size`. -/
def compute_process_file_size (rank np file_size : Nat) : Nat × Nat × Nat :=
  let start := (rank * file_size) / np
  let end_ := ((rank + 1) * file_size) / np
  (start, end_, end_ - start)

/-- The declaration `int start = (rank * size) / np;` of the MPI `count_sort` and
`multiply` as the machine evaluates it: `rank`, `size`, `np` are `int`, so the product is
an `int` product and the quotient is the truncating `int` division. -/
def start_int (rank np size : Int) : Int :=
  to_int (Int.tdiv (to_int (rank * size)) np)

/-- The declaration `int end = ((rank + 1) * size) / np;` of the MPI `count_sort` and
`multiply` as the machine evaluates it. -/
def end_int (rank np size : Int) : Int :=
  to_int (Int.tdiv (to_int (to_int (rank + 1) * size)) np)

/-- The function `compute_process_file_size` as the machine evaluates it: `rank` and `np`
are `int`, `file_size` is `long`, so `rank + 1` is an `int` sum, the products and
quotients are `long`, the assignments to `*start` and `*end` narrow to `int`, and
`*end - *start` is an `int` difference widened to the `long` `*pfile_size`. -/
def compute_process_file_size_machine (rank np file_size : Int) : Int × Int × Int :=
  let start := to_int (to_long (Int.tdiv (to_long (rank * file_size)) np))
  let end_ := to_int (to_long (Int.tdiv (to_long (to_int (rank + 1) * file_size)) np))
  (start, end_, to_long (to_int (end_ - start)))

/-! ## Counting sort -/

/-- The body of the inner loop of `count_sort` (identical in the MPI and the OpenMP
program): the new value of `count` after iteration `j` of the scan for index `i`. -/
def count_step (array : List Int) (i j count : Nat) : Nat :=
  if array.getD j 0 < array.getD i 0 then count + 1
  else if array.getD j 0 = array.getD i 0 ∧ j < i then count + 1
  else count

/-- The inner loop `count = 0; for (j = 0; j < size; j++) ..` of `count_sort`: the value
of `count` when `temp[count] = array[i]` is executed. -/
def count (array : List Int) (size i : Nat) : Nat :=
  forLoop 0 size (fun j count => count_step array i j count) 0

/-- The order in which counting sort places the indices: `j` comes before `i` when its
value is smaller, or equal with `j` the smaller index.  These are exactly the `j` for
which the inner loop of `count_sort` increments `count`. -/
@[reducible] def before (array : List Int) (j i : Nat) : Prop :=
  array.getD j 0 < array.getD i 0 ∨ (array.getD j 0 = array.getD i 0 ∧ j < i)

namespace MPI

/-- The function `count_sort` of `mpi/count_sort/count_sort.c`: `int` bounds `start`,
`end`, `calloc`ed `temp`, the loop `for (i = start; i < end; i++)` with the accesses
`array[i]` and `temp[count]` checked, and the final
`memcpy(array, temp, size * sizeof(int))`; returns the contents of `array`. -/
def count_sort (rank np : Int) (array : List Int) (size : Int) : Option (List Int) :=
  let start := start_int rank np size
  let end_ := end_int rank np size
  let temp := List.replicate size.toNat (0 : Int)
  (forLoopZ start end_ (fun i temp =>
    if 0 ≤ i ∧ i < array.length then
      let count := count array size.toNat i.toNat
      if count < temp.length then some (temp.set count (array.getD i.toNat 0)) else none
    else none) temp).map
  (fun temp => temp.take size.toNat ++ array.drop size.toNat)

/-- The buffer `sorted` at the master after `MPI_Bcast`, `count_sort` on every rank and
`MPI_Reduce(array, sorted, size, MPI_INT, MPI_SUM, ..)` in `main`; there is a result
only if `count_sort` stays inside its buffers on every rank. -/
def sorted (np : Nat) (array : List Int) (size : Nat) : Option (List Int) :=
  if (List.range np).all (fun rank => (count_sort rank np array size).isSome) then
    some (MPI_Reduce_int np size (fun rank => (count_sort rank np array size).getD []))
  else none

end MPI

namespace OpenMP

/-- The function `count_sort` of `openmp/count_sort/count_sort.c`, iterations taken in
index order; `sorted_arr` comes from `malloc`, so its initial contents are arbitrary. -/
def count_sort (size _thread_count : Nat) (array sorted_arr : List Int) : List Int :=
  forLoop 0 size (fun i sorted_arr => sorted_arr.set (count array size i) (array.getD i 0)) sorted_arr

/-- The loop of the OpenMP `count_sort` with its iterations executed in the order
`schedule` (any interleaving of the threads of the `parallel for`). -/
def count_sort_scheduled (schedule : List Nat) (size : Nat) (array sorted_arr : List Int) :
    List Int :=
  schedule.foldl (fun sorted_arr i => sorted_arr.set (count array size i) (array.getD i 0))
    sorted_arr

end OpenMP

/-! ## Character frequency -/

/-- The constant `#define N 128`. -/
def N : Nat := 128

/-- The constant `#define BASE 0`. -/
def BASE : Int := 0

/-- The value of a file byte once stored in the `char` buffer by `fread`
(`char` is signed on the program's platform). -/
def toChar (b : Fin 256) : Int := if b.val < 128 then (b.val : Int) else (b.val : Int) - 256

/-- The update `freq[c - BASE]++` of an `int` bucket for a character `c`; `none` when the
index `c - BASE` lies outside the buffer `freq`. -/
def bucket_incr (freq : List Int) (c : Int) : Option (List Int) :=
  let idx := c - BASE
  if 0 ≤ idx ∧ idx < freq.length then
    some (freq.set idx.toNat (to_int (freq.getD idx.toNat 0 + 1)))
  else none

/-- The statement `freq[buffer[i] - BASE]++` for the `int` index `i`, with both array
accesses checked. -/
def incr_freq (buffer : List Int) (i : Int) (freq : List Int) : Option (List Int) :=
  if 0 ≤ i then
    match buffer[i.toNat]? with
    | none => none
    | some c => bucket_incr freq c
  else none

/-- How one rank of `main` in `mpi/char_freq/char_freq.c` ends. -/
inductive Exit where
  | ok (freq : List Int)
  | memory_error
  | fault

/-- The buffer a rank contributes to `MPI_Reduce`: none after `Memory error` (`return 3`)
or an access outside a buffer. -/
def Exit.result : Exit → Option (List Int)
  | Exit.ok freq => some freq
  | Exit.memory_error => none
  | Exit.fault => none

namespace MPI

/-- The function `compute_character_frequency` of `mpi/char_freq/char_freq.c`: the loop
`for (i = 0; i < file_size; i++)` with the `int` counter `i` compared with the `long`
`file_size`. -/
def compute_character_frequency (file_size : Int) (buffer : List Int) (freq : List Int) :
    Option (List Int) :=
  forLoopM 0 file_size.toNat (fun k freq => incr_freq buffer (to_int k) freq) freq

/-- One rank of `main` in `mpi/char_freq/char_freq.c`: `compute_process_file_size`,
`malloc(pfile_size)` (`Memory error`, `return 3` when it fails), `fseek` to `start`
(which fails and leaves the position at 0 for a negative offset), `fread` of at most
`pfile_size` bytes, and the kernel on the `calloc`ed `freq`. -/
def freq (rank np : Int) (file : List (Fin 256)) : Exit :=
  let (start, _, pfile_size) := compute_process_file_size_machine rank np file.length
  if pfile_size < 0 then Exit.memory_error
  else
    let pos := if start < 0 then 0 else start.toNat
    let buffer := ((file.drop pos).take pfile_size.toNat).map toChar
    match compute_character_frequency pfile_size buffer (List.replicate N 0) with
    | some freq => Exit.ok freq
    | none => Exit.fault

/-- The buffer `total_freq` at the master after `MPI_Reduce(freq, total_freq, N, MPI_INT,
MPI_SUM, ..)`; there is a result only if every rank reaches the collective. -/
def total_freq (np : Nat) (file : List (Fin 256)) : Option (List Int) :=
  if (List.range np).all (fun rank => (freq rank np file).result.isSome) then
    some (MPI_Reduce_int np N (fun rank => ((freq rank np file).result).getD []))
  else none

end MPI

namespace OpenMP

/-- The function `compute_character_frequency` of `openmp/char_freq/char_freq.c`; the
trip count of the `parallel for` is computed in the type `int` of its counter, so the
`long` bound `file_size` is narrowed; the increments sit in a critical section, here
taken in index order. -/
def compute_character_frequency (_thread_count : Nat) (file_size : Int) (buffer : List Int)
    (freq : List Int) : Option (List Int) :=
  let freq := forLoop 0 N (fun i freq => freq.set i 0) freq
  forLoopM 0 (to_int file_size).toNat (fun k freq => incr_freq buffer k freq) freq

/-- The OpenMP `compute_character_frequency` with the critical sections entered in the
order `schedule`. -/
def compute_character_frequency_scheduled (schedule : List Nat) (buffer : List Int)
    (freq : List Int) : Option (List Int) :=
  let freq := forLoop 0 N (fun i freq => freq.set i 0) freq
  schedule.foldlM (fun freq (i : Nat) => incr_freq buffer (i : Int) freq) freq

end OpenMP

/-! ## Matrix times vector -/

namespace MPI

/-- The function `multiply` of `mpi/matrix_x_vector/mxv.c` over an arbitrary number type:
`int` bounds `start`, `end`, the zeroing loop over the `size` entries of
`result_vector`, and the row loops with the `int` index `i * size + j`; the accesses
`result_vector[i]`, `matrix[i * size + j]` and `vector[j]` are checked.  Returns the
contents of `result_vector`. -/
def multiply {α : Type} [Add α] [Mul α] [Zero α] (rank np size : Int)
    (matrix vector result_vector : List α) : Option (List α) :=
  let start := start_int rank np size
  let end_ := end_int rank np size
  let result_vector := forLoop 0 size.toNat (fun i rv => rv.set i 0) result_vector
  forLoopZ start end_ (fun i rv =>
    forLoopM 0 size.toNat (fun j rv =>
      let idx := to_int (to_int (i * size) + j)
      if 0 ≤ i ∧ i < rv.length ∧ 0 ≤ idx ∧ idx < matrix.length ∧ j < vector.length then
        some (rv.set i.toNat
          (rv.getD i.toNat 0 + matrix.getD idx.toNat 0 * vector.getD j 0))
      else none) rv) result_vector

/-- The buffer `result_vector` at the master after `multiply` on every rank and
`MPI_Reduce(local_result_vector, result_vector, size, MPI_DOUBLE, MPI_SUM, ..)`;
`local_result_vector rank` is the uninitialised buffer each rank got from `malloc`;
there is a result only if `multiply` stays inside its buffers on every rank. -/
def result_vector {α : Type} [Add α] [Mul α] [Zero α] (np size : Nat)
    (matrix vector : List α) (local_result_vector : Nat → List α) : Option (List α) :=
  if (List.range np).all (fun rank =>
      (multiply rank np size matrix vector (local_result_vector rank)).isSome) then
    some (MPI_Reduce np size (fun rank =>
      (multiply rank np size matrix vector (local_result_vector rank)).getD []))
  else none

end MPI

/-- The sequential dot product of row `i` of the row-major `size × size` matrix with the
vector: `acc = 0; for (j = 0; j < size; j++) acc = acc + matrix[i * size + j] * vector[j]`. -/
def dotRow {α : Type} [Add α] [Mul α] [Zero α] (size : Nat) (matrix vector : List α)
    (i : Nat) : α :=
  (List.range size).foldl
    (fun acc j => acc + matrix.getD (i * size + j) 0 * vector.getD j 0) 0

/-- The histogram of the specification: bucket `v` (for `v` in `0 .. N-1`) is the number
of occurrences of the byte value `v` in the whole input. -/
def histogram_spec (file : List (Fin 256)) : List Int :=
  (List.range N).map (fun v => ((file.countP (fun b => b.val == v) : Nat) : Int))

/-! ## The partitioner: exact reference values -/

theorem start_zero (np size : Nat) : start 0 np size = 0 := by
  simp [start]

theorem end_eq_start_succ (rank np size : Nat) : end_ rank np size = start (rank + 1) np size := rfl

theorem start_mono {r s : Nat} (np size : Nat) (h : r ≤ s) : start r np size ≤ start s np size :=
  Nat.div_le_div_right (Nat.mul_le_mul_right size h)

theorem start_np (np size : Nat) (h : 1 ≤ np) : start np np size = size := by
  unfold start
  exact Nat.mul_div_cancel_left size h

theorem start_le_size {r np : Nat} (size : Nat) (h : 1 ≤ np) (hr : r ≤ np) :
    start r np size ≤ size := by
  have := start_mono np size hr
  rwa [start_np np size h] at this

/-- Every index below `start k` is owned by one of the ranks `0 .. k-1`. -/
theorem exists_owner (np size : Nat) (k i : Nat) (hi : i < start k np size) :
    ∃ r, r < k ∧ start r np size ≤ i ∧ i < start (r + 1) np size := by
  induction k with
  | zero => simp [start_zero] at hi
  | succ k ih =>
    by_cases h : i < start k np size
    · obtain ⟨r, hr, h1, h2⟩ := ih h
      exact ⟨r, Nat.lt_succ_of_lt hr, h1, h2⟩
    · exact ⟨k, Nat.lt_succ_self k, Nat.le_of_not_lt h, hi⟩

/-- Two ranks that own a common index are the same rank. -/
theorem owner_unique (np size : Nat) {r s i : Nat}
    (hr1 : start r np size ≤ i) (hr2 : i < start (r + 1) np size)
    (hs1 : start s np size ≤ i) (hs2 : i < start (s + 1) np size) : r = s := by
  rcases Nat.lt_trichotomy r s with h | h | h
  · have := start_mono np size (show r + 1 ≤ s from h)
    omega
  · exact h
  · have := start_mono np size (show s + 1 ≤ r from h)
    omega

theorem to_int_of_range {x : Int} (h1 : -2147483648 ≤ x) (h2 : x ≤ 2147483647) :
    to_int x = x := by
  unfold to_int wrap
  norm_num
  omega

theorem to_long_of_range {x : Int} (h1 : -9223372036854775808 ≤ x)
    (h2 : x ≤ 9223372036854775807) : to_long x = x := by
  unfold to_long wrap
  norm_num
  omega

/-- The truncating quotient of two natural numbers is their exact quotient. -/
theorem tdiv_natCast (m n : Nat) : Int.tdiv (m : Int) (n : Int) = ((m / n : Nat) : Int) := by
  rw [Int.tdiv_eq_ediv (Int.ofNat_nonneg m) (Int.ofNat_nonneg n), Int.ofNat_ediv]

/-- An `int` quotient whose dividend fits an `int` is the exact quotient. -/
theorem int_quot (m n : Nat) (hm : m ≤ 2147483647) :
    to_int (Int.tdiv (to_int (m : Int)) (n : Int)) = ((m / n : Nat) : Int) := by
  have hq : m / n ≤ m := Nat.div_le_self m n
  have h1 : to_int (m : Int) = (m : Int) := to_int_of_range (by omega) (by omega)
  rw [h1, tdiv_natCast]
  generalize m / n = q at hq
  exact to_int_of_range (by omega) (by omega)

/-- A `long` quotient narrowed to `int` whose dividend fits an `int` is the exact
quotient. -/
theorem long_quot (m n : Nat) (hm : m ≤ 2147483647) :
    to_int (to_long (Int.tdiv (to_long (m : Int)) (n : Int))) = ((m / n : Nat) : Int) := by
  have hq : m / n ≤ m := Nat.div_le_self m n
  have h1 : to_long (m : Int) = (m : Int) := to_long_of_range (by omega) (by omega)
  rw [h1, tdiv_natCast]
  generalize m / n = q at hq
  have h2 : to_long (q : Int) = (q : Int) := to_long_of_range (by omega) (by omega)
  rw [h2]
  exact to_int_of_range (by omega) (by omega)

/-- Below `2^31` the products of the partitioner stay below `2^31`. -/
theorem products_fit {np rank N : Nat} (hr : rank < np) (hN : np * N ≤ 2 ^ 31 - 1) :
    rank * N ≤ 2147483647 ∧ (rank + 1) * N ≤ 2147483647 := by
  have h1 : rank * N ≤ np * N := Nat.mul_le_mul_right N (Nat.le_of_lt hr)
  have h2 : (rank + 1) * N ≤ np * N := Nat.mul_le_mul_right N hr
  norm_num at hN
  omega

theorem to_int_range (x : Int) : -2147483648 ≤ to_int x ∧ to_int x ≤ 2147483647 := by
  unfold to_int wrap
  norm_num
  omega

theorem tdiv_bounds {w n : Int} (hn : 0 < n) (h1 : -2147483648 ≤ w) (h2 : w ≤ 2147483647) :
    -2147483648 ≤ Int.tdiv w n ∧ Int.tdiv w n ≤ 2147483647 ∧
    (w < 0 → Int.tdiv w n ≤ 0) ∧ (0 ≤ w → Int.tdiv w n = w / n) := by
  by_cases hw : 0 ≤ w
  · have e : Int.tdiv w n = w / n := Int.tdiv_eq_ediv hw (le_of_lt hn)
    have q0 : 0 ≤ w / n := Int.ediv_nonneg hw (le_of_lt hn)
    have q1 : w / n ≤ w := Int.ediv_le_self n hw
    rw [e]
    exact ⟨by omega, by omega, fun h => by omega, fun _ => rfl⟩
  · have hneg : 0 ≤ -w := by omega
    have e : Int.tdiv w n = -((-w) / n) := by
      rw [← Int.tdiv_eq_ediv hneg (le_of_lt hn), Int.neg_tdiv, neg_neg]
    have q0 : 0 ≤ (-w) / n := Int.ediv_nonneg hneg (le_of_lt hn)
    have q1 : (-w) / n ≤ -w := Int.ediv_le_self n hneg
    rw [e]
    exact ⟨by omega, by omega, fun _ => by omega, fun h => absurd h hw⟩

/-- Below `2^31` the stored `int start` is the exact quotient (also for `rank = np`). -/
theorem start_int_exact {np rank N : Nat} (hr : rank ≤ np) (hN : np * N ≤ 2 ^ 31 - 1) :
    start_int rank np N = (start rank np N : Int) := by
  have h1 : rank * N ≤ np * N := Nat.mul_le_mul_right N hr
  norm_num at hN
  have hprod : (rank : Int) * (N : Int) = ((rank * N : Nat) : Int) := by push_cast; rfl
  unfold start_int start
  rw [hprod]
  exact int_quot _ _ (by omega)

/-- Below `2^31` the stored `int end` is the exact quotient. -/
theorem end_int_exact {np rank N : Nat} (hint : np ≤ 2 ^ 31 - 1) (hr : rank < np)
    (hN : np * N ≤ 2 ^ 31 - 1) : end_int rank np N = (end_ rank np N : Int) := by
  obtain ⟨_, hp2⟩ := products_fit hr hN
  norm_num at hint
  have hrank : to_int ((rank : Int) + 1) = ((rank + 1 : Nat) : Int) := by
    rw [to_int_of_range (by omega) (by omega)]
    push_cast
    rfl
  have hprod : ((rank + 1 : Nat) : Int) * (N : Int) = (((rank + 1) * N : Nat) : Int) := by
    push_cast; rfl
  unfold end_int end_
  rw [hrank, hprod]
  exact int_quot _ _ hp2

/-- A `long` quotient narrowed to `int` is the exact quotient when the dividend fits a
`long` and the quotient an `int`. -/
theorem long_quot_narrow (m n : Nat) (hm : m ≤ 9223372036854775807)
    (hq : m / n ≤ 2147483647) :
    to_int (to_long (Int.tdiv (to_long (m : Int)) (n : Int))) = ((m / n : Nat) : Int) := by
  have h1 : to_long (m : Int) = (m : Int) := to_long_of_range (by omega) (by omega)
  rw [h1, tdiv_natCast]
  generalize m / n = q at hq
  have h2 : to_long (q : Int) = (q : Int) := to_long_of_range (by omega) (by omega)
  rw [h2]
  exact to_int_of_range (by omega) (by omega)

/-- For a file whose size fits an `int`, `compute_process_file_size` stores the exact
bounds and the exact slice length. -/
theorem file_size_machine_exact {np rank N : Nat} (hint : np ≤ 2 ^ 31 - 1) (hr : rank < np)
    (hN : N ≤ 2 ^ 31 - 1) :
    compute_process_file_size_machine rank np N
      = ((start rank np N : Int), (end_ rank np N : Int),
          (end_ rank np N : Int) - (start rank np N : Int)) := by
  norm_num at hint hN
  have hnp : 1 ≤ np := by omega
  have hs : start rank np N ≤ N := start_le_size N hnp (Nat.le_of_lt hr)
  have he : end_ rank np N ≤ N := start_le_size N hnp hr
  have hle : start rank np N ≤ end_ rank np N := start_mono np N (Nat.le_succ rank)
  have hp1 : rank * N ≤ 2147483647 * 2147483647 := Nat.mul_le_mul (by omega) hN
  have hp2 : (rank + 1) * N ≤ 2147483647 * 2147483647 := Nat.mul_le_mul (by omega) hN
  have hrank : to_int ((rank : Int) + 1) = ((rank + 1 : Nat) : Int) := by
    rw [to_int_of_range (by omega) (by omega)]
    push_cast
    rfl
  have hprod0 : (rank : Int) * (N : Int) = ((rank * N : Nat) : Int) := by push_cast; rfl
  have hprod1 : ((rank + 1 : Nat) : Int) * (N : Int) = (((rank + 1) * N : Nat) : Int) := by
    push_cast; rfl
  have q1 := long_quot_narrow (rank * N) np (by omega) (by unfold start at hs; omega)
  have q2 := long_quot_narrow ((rank + 1) * N) np (by omega) (by unfold end_ at he; omega)
  unfold compute_process_file_size_machine
  simp only
  rw [hrank, hprod0, hprod1, q1, q2]
  have e0 : ((rank * N / np : Nat) : Int) = (start rank np N : Int) := rfl
  have e1 : (((rank + 1) * N / np : Nat) : Int) = (end_ rank np N : Int) := rfl
  rw [e0, e1, to_int_of_range (by omega) (by omega), to_long_of_range (by omega) (by omega)]

/-! ## The partitioner: coverage and balance -/

theorem foldl_count (P Q : Nat → Prop) [DecidablePred P] [DecidablePred Q] (l : List Nat)
    (c : Nat) :
    l.foldl (fun acc j => if P j then acc + 1 else if Q j then acc + 1 else acc) c
      = c + l.countP (fun j => decide (P j ∨ Q j)) := by
  induction l generalizing c with
  | nil => simp
  | cons x xs ih =>
    rw [List.foldl_cons, ih, List.countP_cons]
    by_cases hP : P x <;> by_cases hQ : Q x <;> simp [hP, hQ] <;> omega

/-- The value of `count` is the number of indices placed before `i`. -/
theorem count_eq_card (array : List Int) (size i : Nat) :
    count array size i = ((Finset.range size).filter (fun j => before array j i)).card := by
  unfold count forLoop
  simp only [count_step]
  rw [foldl_count, Nat.sub_zero, ← List.range_eq_range', Nat.zero_add]
  simp only [before, Finset.card, Finset.filter, Finset.range, Multiset.range,
    ← Multiset.countP_eq_card_filter, Multiset.coe_countP]

theorem before_irrefl (array : List Int) (i : Nat) : ¬ before array i i := by
  simp [before]

theorem before_trans (array : List Int) {i j k : Nat} (h1 : before array i j)
    (h2 : before array j k) : before array i k := by
  unfold before at *
  omega

theorem before_total (array : List Int) {i j : Nat} (h : i ≠ j) :
    before array i j ∨ before array j i := by
  unfold before
  omega

/-- The write index `count` is inside the buffer. -/
theorem count_lt (array : List Int) {size i : Nat} (hi : i < size) :
    count array size i < size := by
  rw [count_eq_card]
  have h : (Finset.range size).filter (fun j => before array j i) ⊂ Finset.range size := by
    rw [Finset.ssubset_iff_of_subset (Finset.filter_subset _ _)]
    exact ⟨i, Finset.mem_range.mpr hi, by simp [before_irrefl]⟩
  simpa using Finset.card_lt_card h

/-- An index placed before another one gets a strictly smaller `count`. -/
theorem count_lt_count (array : List Int) {size i j : Nat} (hi : i < size)
    (h : before array i j) : count array size i < count array size j := by
  rw [count_eq_card, count_eq_card]
  apply Finset.card_lt_card
  rw [Finset.ssubset_iff_of_subset]
  · refine ⟨i, ?_, ?_⟩
    · simp [hi, h]
    · simp [before_irrefl]
  · intro k hk
    simp only [Finset.mem_filter] at hk ⊢
    exact ⟨hk.1, before_trans array hk.2 h⟩

theorem count_injective (array : List Int) {size i j : Nat} (hi : i < size) (hj : j < size)
    (h : count array size i = count array size j) : i = j := by
  by_contra hne
  rcases before_total array hne with hb | hb
  · have := count_lt_count array hi hb
    omega
  · have := count_lt_count array hj hb
    omega

theorem count_surjective (array : List Int) {size k : Nat} (hk : k < size) :
    ∃ i, i < size ∧ count array size i = k := by
  have himg : (Finset.range size).image (count array size) = Finset.range size := by
    apply Finset.eq_of_subset_of_card_le
    · intro x hx
      obtain ⟨i, hi, rfl⟩ := Finset.mem_image.mp hx
      exact Finset.mem_range.mpr (count_lt array (Finset.mem_range.mp hi))
    · rw [Finset.card_image_of_injOn]
      intro i hi j hj h
      exact count_injective array (Finset.mem_range.mp hi) (Finset.mem_range.mp hj) h
  have : k ∈ (Finset.range size).image (count array size) := by
    rw [himg]; exact Finset.mem_range.mpr hk
  obtain ⟨i, hi, h⟩ := Finset.mem_image.mp this
  exact ⟨i, Finset.mem_range.mp hi, h⟩

/-- A smaller `count` means a value that is not larger. -/
theorem le_of_count_lt (array : List Int) {size i j : Nat} (hj : j < size)
    (h : count array size i < count array size j) : array.getD i 0 ≤ array.getD j 0 := by
  by_contra hlt
  have hb : before array j i := Or.inl (lt_of_not_le hlt)
  have := count_lt_count array hj hb
  omega

/-! ## Loops that scatter values into a buffer -/

theorem foldl_set_length {α : Type} (c : Nat → Nat) (v : Nat → α) (l : List Nat) (t : List α) :
    (l.foldl (fun acc i => acc.set (c i) (v i)) t).length = t.length := by
  induction l generalizing t with
  | nil => rfl
  | cons x xs ih => rw [List.foldl_cons, ih, List.length_set]

/-- A position that no iteration writes keeps its initial contents. -/
theorem foldl_set_getD_untouched {α : Type} (c : Nat → Nat) (v : Nat → α) (d : α)
    (l : List Nat) (t : List α) (k : Nat) (h : ∀ i ∈ l, c i ≠ k) :
    (l.foldl (fun acc i => acc.set (c i) (v i)) t).getD k d = t.getD k d := by
  induction l generalizing t with
  | nil => rfl
  | cons x xs ih =>
    rw [List.foldl_cons, ih _ (fun i hi => h i (List.mem_cons_of_mem _ hi))]
    have hx : c x ≠ k := h x (List.mem_cons_self _ _)
    simp [List.getD_eq_getElem?_getD, List.getElem?_set_ne hx]

/-- A position written by exactly one iteration holds the value of that iteration. -/
theorem foldl_set_getD_written {α : Type} (c : Nat → Nat) (v : Nat → α) (d : α)
    (l : List Nat) (t : List α) (k i : Nat) (hi : i ∈ l) (hk : k < t.length)
    (hc : ∀ j ∈ l, c j = k ↔ j = i) :
    (l.foldl (fun acc i => acc.set (c i) (v i)) t).getD k d = v i := by
  induction l generalizing t with
  | nil => simp at hi
  | cons x xs ih =>
    rw [List.foldl_cons]
    by_cases hxs : i ∈ xs
    · exact ih _ hxs (by rwa [List.length_set])
        (fun j hj => hc j (List.mem_cons_of_mem _ hj))
    · have hx : x = i := by
        rcases List.mem_cons.mp hi with h | h
        · exact h.symm
        · exact absurd h hxs
      subst hx
      have hcx : c x = k := (hc x (List.mem_cons_self _ _)).mpr rfl
      rw [foldl_set_getD_untouched]
      · simp [List.getD_eq_getElem?_getD, hcx, List.getElem?_set_self hk]
      · intro j hj hcj
        have := (hc j (List.mem_cons_of_mem _ hj)).mp hcj
        exact hxs (this ▸ hj)

theorem mem_range'_iff (lo hi i : Nat) : i ∈ List.range' lo (hi - lo) ↔ lo ≤ i ∧ i < hi := by
  rw [List.mem_range'_1]
  omega

/-- A sum in which at most the term of `r0` is not zero is that term (no associativity
of the addition is needed). -/
theorem sum_single {α : Type} [AddZeroClass α] (f : Nat → α) (r0 : Nat) (l : List Nat)
    (hnd : l.Nodup) (h : ∀ r ∈ l, r ≠ r0 → f r = 0) :
    (l.map f).sum = if r0 ∈ l then f r0 else 0 := by
  induction l with
  | nil => simp
  | cons x xs ih =>
    obtain ⟨hx, hxs⟩ := List.nodup_cons.mp hnd
    rw [List.map_cons, List.sum_cons, ih hxs (fun r hr => h r (List.mem_cons_of_mem _ hr))]
    by_cases hxr : x = r0
    · subst hxr
      rw [if_neg hx, if_pos (List.mem_cons_self _ _), add_zero]
    · rw [h x (List.mem_cons_self _ _) hxr, zero_add]
      by_cases hin : r0 ∈ xs
      · rw [if_pos hin, if_pos (List.mem_cons_of_mem _ hin)]
      · rw [if_neg hin, if_neg (fun hc => (List.mem_cons.mp hc).elim (fun e => hxr e.symm) hin)]

/-- A sum over the ranks `0 .. np-1` in which only the owner of index `i` contributes. -/
theorem sum_owner {α : Type} [AddZeroClass α] {np size i : Nat} (hnp : 1 ≤ np)
    (hi : i < size) (x : α) :
    ((List.range np).map (fun r =>
        if start r np size ≤ i ∧ i < end_ r np size then x else 0)).sum = x := by
  obtain ⟨r0, hr0, h1, h2⟩ := exists_owner np size np i (by rwa [start_np np size hnp])
  rw [sum_single _ r0 _ (List.nodup_range np), if_pos (List.mem_range.mpr hr0)]
  · exact if_pos ⟨h1, h2⟩
  · intro r _ hne
    exact if_neg (fun h => hne (owner_unique np size h.1 h.2 h1 h2))

theorem MPI_Reduce_length {α : Type} [Add α] [Zero α] (np count : Nat)
    (sendbuf : Nat → List α) : (MPI_Reduce np count sendbuf).length = count := by
  simp [MPI_Reduce]

theorem MPI_Reduce_getD {α : Type} [Add α] [Zero α] (np count : Nat)
    (sendbuf : Nat → List α) {k : Nat} (hk : k < count) :
    (MPI_Reduce np count sendbuf).getD k 0
      = ((List.range np).map (fun rank => (sendbuf rank).getD k 0)).sum := by
  simp [MPI_Reduce, List.getD_eq_getElem?_getD, hk]

theorem MPI_Reduce_int_length (np count : Nat) (sendbuf : Nat → List Int) :
    (MPI_Reduce_int np count sendbuf).length = count := by
  simp [MPI_Reduce_int]

theorem MPI_Reduce_int_getD (np count : Nat) (sendbuf : Nat → List Int) {k : Nat}
    (hk : k < count) :
    (MPI_Reduce_int np count sendbuf).getD k 0
      = to_int ((List.range np).map (fun rank => (sendbuf rank).getD k 0)).sum := by
  simp [MPI_Reduce_int, List.getD_eq_getElem?_getD, hk]

/-- Wrapping every partial sum gives the same `int` as wrapping the total. -/
theorem to_int_add_to_int (a b : Int) : to_int (to_int a + b) = to_int (a + b) := by
  unfold to_int wrap
  norm_num
  omega

/-! ## Checked loops -/

/-- A checked loop whose checks all pass is the unchecked loop. -/
theorem foldlM_some {σ ι : Type} (f : σ → ι → Option σ) (g : σ → ι → σ) (P : σ → Prop)
    (l : List ι) (s : σ) (hs : P s)
    (h : ∀ i ∈ l, ∀ t, P t → f t i = some (g t i) ∧ P (g t i)) :
    l.foldlM f s = some (l.foldl g s) ∧ P (l.foldl g s) := by
  induction l generalizing s with
  | nil => exact ⟨rfl, hs⟩
  | cons x xs ih =>
    obtain ⟨h1, h2⟩ := h x (List.mem_cons_self _ _) s hs
    rw [List.foldlM_cons, h1, List.foldl_cons]
    exact ih (g s x) h2 (fun i hi => h i (List.mem_cons_of_mem _ hi))

/-- A property kept by every successful iteration holds for the result of a checked
loop. -/
theorem foldlM_invariant {σ ι : Type} (f : σ → ι → Option σ) (Q : σ → Prop)
    (l : List ι) (s : σ) (hs : Q s)
    (h : ∀ i ∈ l, ∀ t t', Q t → f t i = some t' → Q t') :
    ∀ r, l.foldlM f s = some r → Q r := by
  induction l generalizing s with
  | nil =>
    intro r hr
    have : s = r := Option.some.inj hr
    exact this ▸ hs
  | cons x xs ih =>
    intro r hr
    rw [List.foldlM_cons] at hr
    cases hx : f s x with
    | none =>
      rw [hx] at hr
      exact absurd hr (by simp)
    | some t' =>
      rw [hx] at hr
      exact ih t' (h x (List.mem_cons_self _ _) s t' hs hx)
        (fun i hi => h i (List.mem_cons_of_mem _ hi)) r hr

/-- An iteration that fails in every state makes the checked loop fail. -/
theorem foldlM_none {σ ι : Type} (f : σ → ι → Option σ) (l : List ι) (s : σ) (x : ι)
    (hx : x ∈ l) (h : ∀ t, f t x = none) : l.foldlM f s = none := by
  induction l generalizing s with
  | nil => simp at hx
  | cons y ys ih =>
    rw [List.foldlM_cons]
    cases hy : f s y with
    | none => rfl
    | some t' =>
      rcases List.mem_cons.mp hx with e | e
      · rw [← e, h s] at hy
        exact absurd hy (by simp)
      · exact ih t' e

/-- A loop over `int` bounds that are natural numbers visits `lo, .., hi-1`. -/
theorem forLoopZ_natCast {σ : Type} (lo hi : Nat) (body : Int → σ → Option σ) (s : σ) :
    forLoopZ (lo : Int) (hi : Int) body s
      = (List.range' lo (hi - lo)).foldlM (fun acc (i : Nat) => body (i : Int) acc) s := by
  unfold forLoopZ
  have e : ((hi : Int) - (lo : Int)).toNat = hi - lo := by omega
  rw [e, List.range'_eq_map_range, List.foldlM_map]
  congr 1

/-- The indices a loop over `int` bounds visits lie between the bounds. -/
theorem forLoopZ_invariant {σ : Type} (lo hi : Int) (body : Int → σ → Option σ) (Q : σ → Prop)
    (s : σ) (hs : Q s)
    (h : ∀ i : Int, lo ≤ i → i < hi → ∀ t t', Q t → body i t = some t' → Q t') :
    ∀ r, forLoopZ lo hi body s = some r → Q r := by
  unfold forLoopZ
  apply foldlM_invariant _ Q _ s hs
  intro k hk t t' ht hb
  have hk' := List.mem_range.mp hk
  exact h (lo + (k : Int)) (by omega) (by omega) t t' ht hb

/-! ## Counting sort: the buffers of the two programs -/

/-- Any buffer that holds `array[i]` at position `count i` for every `i` is a sorted
permutation of `array`. -/
theorem scatter_sorted_perm (array res : List Int) (hlen : res.length = array.length)
    (h : ∀ i, i < array.length → res.getD (count array array.length i) 0 = array.getD i 0) :
    res.Perm array ∧ res.Sorted (fun x y => x ≤ y) := by
  constructor
  · let f : Fin array.length → Fin array.length :=
      fun i => ⟨count array array.length i, count_lt array i.2⟩
    have hinj : Function.Injective f := by
      intro i j hij
      exact Fin.ext (count_injective array i.2 j.2 (Fin.mk.inj_iff.mp hij))
    let σ : Equiv.Perm (Fin array.length) :=
      Equiv.ofBijective f (Finite.injective_iff_bijective.mp hinj)
    let g : Fin array.length → Int := fun k => res.getD k.val 0
    have hres : res = List.ofFn g := by
      apply List.ext_getElem
      · rw [List.length_ofFn, hlen]
      · intro k h1 h2
        rw [List.getElem_ofFn]
        exact (List.getD_eq_getElem res 0 h1).symm
    have harr : array = List.ofFn (g ∘ σ) := by
      apply List.ext_getElem
      · rw [List.length_ofFn]
      · intro k h1 h2
        rw [List.getElem_ofFn]
        show array[k] = res.getD (count array array.length k) 0
        rw [h k h1, List.getD_eq_getElem array 0 h1]
    have hp := σ.ofFn_comp_perm g
    rw [← hres, ← harr] at hp
    exact hp.symm
  · rw [List.Sorted, List.pairwise_iff_getElem]
    intro k k' hk hk' hlt
    obtain ⟨i, hi, hci⟩ := count_surjective array (hlen ▸ hk)
    obtain ⟨j, hj, hcj⟩ := count_surjective array (hlen ▸ hk')
    rw [← List.getD_eq_getElem res 0 hk, ← List.getD_eq_getElem res 0 hk', ← hci, ← hcj,
      h i hi, h j hj]
    exact le_of_count_lt array hj (by omega)

/-- Two buffers of the length of `array` that both hold `array[i]` at position `count i`
are the same buffer. -/
theorem scatter_unique (array res res' : List Int) (hlen : res.length = array.length)
    (hlen' : res'.length = array.length)
    (h : ∀ i, i < array.length → res.getD (count array array.length i) 0 = array.getD i 0)
    (h' : ∀ i, i < array.length → res'.getD (count array array.length i) 0 = array.getD i 0) :
    res = res' := by
  apply List.ext_getElem (hlen.trans hlen'.symm)
  intro k hk hk'
  obtain ⟨i, hi, hci⟩ := count_surjective array (hlen ▸ hk)
  rw [← List.getD_eq_getElem res 0 hk, ← List.getD_eq_getElem res' 0 hk', ← hci, h i hi, h' i hi]

/-- Below `2^31` the MPI `count_sort` of a rank stays inside its buffers and leaves in
`array` the scatter of the indices `start .. end-1` into a zeroed buffer. -/
theorem MPI_count_sort_eq {rank np : Nat} (hint : np ≤ 2 ^ 31 - 1) (hr : rank < np)
    (array : List Int) (hN : np * array.length ≤ 2 ^ 31 - 1) :
    MPI.count_sort rank np array array.length
      = some ((List.range' (start rank np array.length)
            (end_ rank np array.length - start rank np array.length)).foldl
          (fun acc i => acc.set (count array array.length i) (array.getD i 0))
          (List.replicate array.length 0)) := by
  have hend : end_ rank np array.length ≤ array.length :=
    start_le_size array.length (by omega) hr
  unfold MPI.count_sort
  simp only
  rw [start_int_exact (Nat.le_of_lt hr) hN, end_int_exact hint hr hN, Int.toNat_ofNat,
    forLoopZ_natCast]
  obtain ⟨h1, h2⟩ := foldlM_some
    (fun (temp : List Int) (i : Nat) =>
      if 0 ≤ (i : Int) ∧ (i : Int) < array.length then
        if count array array.length (i : Int).toNat < temp.length then
          some (temp.set (count array array.length (i : Int).toNat)
            (array.getD (i : Int).toNat 0))
        else none
      else none)
    (fun (temp : List Int) (i : Nat) =>
      temp.set (count array array.length i) (array.getD i 0))
    (fun temp => temp.length = array.length)
    (List.range' (start rank np array.length)
      (end_ rank np array.length - start rank np array.length))
    (List.replicate array.length 0) (List.length_replicate _ _)
    (by
      intro i hi t ht
      have hi' := (mem_range'_iff _ _ _).mp hi
      have hlt : i < array.length := by omega
      have hc : count array array.length i < t.length := by
        rw [ht]; exact count_lt array hlt
      beta_reduce
      refine ⟨?_, by rw [List.length_set]; exact ht⟩
      rw [if_pos ⟨Int.ofNat_nonneg i, Int.ofNat_lt.mpr hlt⟩, Int.toNat_ofNat, if_pos hc])
  rw [h1, Option.map_some', List.drop_length, List.append_nil, List.take_of_length_le]
  rw [h2]

/-- Below `2^31` the buffer a rank leaves in `array` has the length of the array, and
position `count i` holds `array[i]` when the rank owns `i` and `0` otherwise. -/
theorem MPI_count_sort_spec {rank np : Nat} (hint : np ≤ 2 ^ 31 - 1) (hr : rank < np)
    (array : List Int) (hN : np * array.length ≤ 2 ^ 31 - 1) :
    ∃ buf, MPI.count_sort rank np array array.length = some buf ∧
      buf.length = array.length ∧
      ∀ i, i < array.length → buf.getD (count array array.length i) 0
        = if start rank np array.length ≤ i ∧ i < end_ rank np array.length
            then array.getD i 0 else 0 := by
  have hnp : 1 ≤ np := by omega
  have hend : end_ rank np array.length ≤ array.length :=
    start_le_size array.length hnp hr
  refine ⟨_, MPI_count_sort_eq hint hr array hN, ?_, ?_⟩
  · rw [foldl_set_length, List.length_replicate]
  · intro i hi
    split
    · rename_i hown
      apply foldl_set_getD_written
      · exact (mem_range'_iff _ _ _).mpr hown
      · rw [List.length_replicate]; exact count_lt array hi
      · intro j hj
        have hj' := (mem_range'_iff _ _ _).mp hj
        constructor
        · exact fun h => count_injective array (by omega) hi h
        · exact fun h => h ▸ rfl
    · rename_i hown
      rw [foldl_set_getD_untouched]
      · simp [List.getD_eq_getElem?_getD, count_lt array hi]
      · intro j hj h
        have hj' := (mem_range'_iff _ _ _).mp hj
        have := count_injective array (by omega) hi h
        exact hown (this ▸ hj')

/-- Below `2^31`, on an array of `int` values, every rank reaches the collective and the
reduced buffer holds `array[i]` at position `count i`. -/
theorem MPI_sorted_spec {np : Nat} (hnp : 1 ≤ np) (hint : np ≤ 2 ^ 31 - 1)
    (array : List Int) (harr : ∀ x ∈ array, to_int x = x)
    (hN : np * array.length ≤ 2 ^ 31 - 1) :
    ∃ res, MPI.sorted np array array.length = some res ∧ res.length = array.length ∧
      ∀ i, i < array.length → res.getD (count array array.length i) 0 = array.getD i 0 := by
  have hall : (List.range np).all
      (fun rank => (MPI.count_sort rank np array array.length).isSome) = true := by
    rw [List.all_eq_true]
    intro r hr
    obtain ⟨buf, hbuf, _⟩ := MPI_count_sort_spec hint (List.mem_range.mp hr) array hN
    rw [hbuf]; rfl
  refine ⟨_, by unfold MPI.sorted; rw [if_pos hall], MPI_Reduce_int_length _ _ _, ?_⟩
  intro i hi
  rw [MPI_Reduce_int_getD _ _ _ (count_lt array hi)]
  have hcongr : (List.range np).map
        (fun (rank : Nat) => ((MPI.count_sort rank np array array.length).getD []).getD
          (count array array.length i) 0)
      = (List.range np).map (fun r =>
          if start r np array.length ≤ i ∧ i < end_ r np array.length
            then array.getD i 0 else 0) := by
    apply List.map_congr_left
    intro r hr
    obtain ⟨buf, hbuf, _, hget⟩ := MPI_count_sort_spec hint (List.mem_range.mp hr) array hN
    rw [hbuf, Option.getD_some, hget i hi]
  rw [hcongr, sum_owner hnp hi]
  apply harr
  rw [List.getD_eq_getElem array 0 hi]
  exact List.getElem_mem hi

theorem OpenMP_count_sort_length (thread_count : Nat) (array sorted_arr : List Int) :
    (OpenMP.count_sort array.length thread_count array sorted_arr).length
      = sorted_arr.length := by
  unfold OpenMP.count_sort forLoop
  rw [foldl_set_length]

/-- After the OpenMP loop position `count i` of `sorted_arr` holds `array[i]`. -/
theorem OpenMP_count_sort_getD (thread_count : Nat) (array sorted_arr : List Int)
    (hlen : sorted_arr.length = array.length) {i : Nat} (hi : i < array.length) :
    (OpenMP.count_sort array.length thread_count array sorted_arr).getD
        (count array array.length i) 0 = array.getD i 0 := by
  unfold OpenMP.count_sort forLoop
  apply foldl_set_getD_written
  · exact (mem_range'_iff _ _ _).mpr ⟨Nat.zero_le _, hi⟩
  · rw [hlen]; exact count_lt array hi
  · intro j hj
    have hj' := (mem_range'_iff _ _ _).mp hj
    constructor
    · exact fun h => count_injective array hj'.2 hi h
    · exact fun h => h ▸ rfl

/-! ## Counting sort above the bound -/

/-- A position that no visited index maps to is still zero in the buffer that
`count_sort` leaves, whatever the stored bounds are. -/
theorem MPI_count_sort_untouched (rank np : Int) (array : List Int) (k : Nat)
    (h : ∀ i : Nat, start_int rank np array.length ≤ (i : Int) →
      (i : Int) < end_int rank np array.length → i < array.length →
      count array array.length i ≠ k)
    (buf : List Int) (hbuf : MPI.count_sort rank np array array.length = some buf) :
    buf.getD k 0 = 0 := by
  unfold MPI.count_sort at hbuf
  simp only [Int.toNat_ofNat] at hbuf
  cases hloop : forLoopZ (start_int rank np array.length) (end_int rank np array.length)
      (fun i temp =>
        if 0 ≤ i ∧ i < (array.length : Int) then
          if count array array.length i.toNat < temp.length then
            some (temp.set (count array array.length i.toNat) (array.getD i.toNat 0))
          else none
        else none) (List.replicate array.length (0 : Int)) with
  | none =>
    rw [hloop] at hbuf
    exact absurd hbuf (by simp)
  | some temp =>
    rw [hloop, Option.map_some', List.drop_length, List.append_nil] at hbuf
    have hQ := forLoopZ_invariant _ _ _
      (fun t : List Int => t.length = array.length ∧ t.getD k 0 = 0)
      (List.replicate array.length (0 : Int))
      ⟨List.length_replicate _ _, by
        rw [List.getD_eq_getElem?_getD, List.getElem?_replicate]
        split <;> rfl⟩
      (by
        intro i h1 h2 t t' ht hb
        split at hb
        · rename_i hin
          split at hb
          · have e : t' = t.set (count array array.length i.toNat)
                (array.getD i.toNat 0) := (Option.some.inj hb).symm
            have hne := h i.toNat (by omega) (by omega) (by omega)
            rw [e]
            refine ⟨by rw [List.length_set]; exact ht.1, ?_⟩
            rw [List.getD_eq_getElem?_getD, List.getElem?_set_ne hne,
              ← List.getD_eq_getElem?_getD]
            exact ht.2
          · exact absurd hb (by simp)
        · exact absurd hb (by simp))
      temp hloop
    rw [← Option.some.inj hbuf, List.take_of_length_le (by rw [hQ.1])]
    exact hQ.2

/-- A position that no rank writes is zero in the reduced buffer. -/
theorem MPI_sorted_untouched (np : Nat) (array : List Int) (k : Nat)
    (h : ∀ r : Nat, r < np → ∀ buf,
      MPI.count_sort r np array array.length = some buf → buf.getD k 0 = 0)
    (res : List Int) (hres : MPI.sorted np array array.length = some res) :
    res.length = array.length ∧ res.getD k 0 = 0 := by
  unfold MPI.sorted at hres
  split at hres
  · rw [← Option.some.inj hres]
    refine ⟨MPI_Reduce_int_length _ _ _, ?_⟩
    by_cases hk : k < array.length
    · rw [MPI_Reduce_int_getD _ _ _ hk, List.sum_eq_zero]
      · decide
      · intro x hx
        obtain ⟨r, hr, rfl⟩ := List.mem_map.mp hx
        cases hb : MPI.count_sort r np array array.length with
        | none => rfl
        | some buf => exact h r (List.mem_range.mp hr) buf hb
    · rw [List.getD_eq_getElem?_getD, List.getElem?_eq_none
        (by rw [MPI_Reduce_int_length]; omega)]
      rfl
  · exact absurd hres (by simp)

/-- With `2^30` processes on two items no stored `end` exceeds 1: the products that fit
give the exact quotient, and the product of the last rank is `2^31` and wraps. -/
theorem end_int_le_one (r : Nat) (hr : r < 2 ^ 30) :
    end_int (r : Int) ((2 ^ 30 : Nat) : Int) ((2 : Nat) : Int) ≤ 1 := by
  norm_num at hr
  by_cases hlast : r = 1073741823
  · subst hlast
    decide
  · have hrank : to_int ((r : Int) + 1) = ((r + 1 : Nat) : Int) := by
      rw [to_int_of_range (by omega) (by omega)]
      push_cast
      rfl
    have hprod : ((r + 1 : Nat) : Int) * ((2 : Nat) : Int) = (((r + 1) * 2 : Nat) : Int) := by
      push_cast; rfl
    unfold end_int
    rw [hrank, hprod, int_quot _ _ (by omega)]
    have : (r + 1) * 2 / 2 ^ 30 ≤ 1 := by
      norm_num
      omega
    exact_mod_cast this

/-- With `2^30` processes on the array `[5,3]` no rank visits index 1, the only index
whose `count` is 0. -/
theorem no_rank_writes_zero (r : Nat) (hr : r < 2 ^ 30) (i : Nat)
    (_h1 : start_int (r : Int) ((2 ^ 30 : Nat) : Int) ((2 : Nat) : Int) ≤ (i : Int))
    (h2 : (i : Int) < end_int (r : Int) ((2 ^ 30 : Nat) : Int) ((2 : Nat) : Int)) :
    count [5, 3] 2 i ≠ 0 := by
  have := end_int_le_one r hr
  have hi : i = 0 := by omega
  subst hi
  decide

/-- With `2^30` processes on the array `[5,3]` position 0 of the reduced buffer is 0. -/
theorem sorted_two_pow_thirty (res : List Int)
    (hres : MPI.sorted (2 ^ 30) [5, 3] 2 = some res) : res.length = 2 ∧ res.getD 0 0 = 0 :=
  MPI_sorted_untouched (2 ^ 30) [5, 3] 0
    (fun r hr buf hbuf => MPI_count_sort_untouched r _ [5, 3] 0
      (fun i h1 h2 _ => no_rank_writes_zero r hr i h1 h2) buf hbuf)
    res hres

/-! ## Counting sort: the claims -/

/-- The number of indices placed before `i` splits into the strictly smaller elements and
the equal elements at a smaller index. -/
theorem count_eq_smaller_add_equal (array : List Int) {size i : Nat} (hi : i < size) :
    count array size i
      = ((Finset.range size).filter (fun j => array.getD j 0 < array.getD i 0)).card
        + ((Finset.range i).filter (fun j => array.getD j 0 = array.getD i 0)).card := by
  rw [count_eq_card, ← Finset.card_union_of_disjoint]
  · congr 1
    ext j
    simp only [Finset.mem_filter, Finset.mem_range, Finset.mem_union, before]
    constructor
    · rintro ⟨h1, h2 | ⟨h2, h3⟩⟩
      · exact Or.inl ⟨h1, h2⟩
      · exact Or.inr ⟨h3, h2⟩
    · rintro (⟨h1, h2⟩ | ⟨h1, h2⟩)
      · exact ⟨h1, Or.inl h2⟩
      · exact ⟨by omega, Or.inr ⟨h2, h1⟩⟩
  · rw [Finset.disjoint_left]
    intro j h1 h2
    simp only [Finset.mem_filter, Finset.mem_range] at h1 h2
    omega

/-- C3, as stated, fails above the bound: with `W = 2^30` workers on the array `[5,3]`
(so `W * N = 2^31`) the `int` product `(rank + 1) * size` of the last rank wraps, its loop
does not run, index 1 is sorted by no rank, and the reduced buffer (if any) holds `0` at
position 0 instead of `3`: it is not a permutation of the input. -/
theorem C3_count_sort_sorts_counterexample :
    end_int (2 ^ 30 - 1) (2 ^ 30) 2 = -2 ∧
    MPI.count_sort (2 ^ 30 - 1) (2 ^ 30) [5, 3] 2 = some [0, 0] ∧
    ¬ ∃ res, MPI.sorted (2 ^ 30) [5, 3] 2 = some res ∧ res.Perm [5, 3] ∧
        res.Sorted (fun x y => x ≤ y) := by
  refine ⟨by decide, by decide, ?_⟩
  rintro ⟨res, hres, hperm, _⟩
  obtain ⟨hlen, h0⟩ := sorted_two_pow_thirty res hres
  have hmem : (0 : Int) ∈ res := by
    rw [List.getD_eq_getElem res 0 (by omega)] at h0
    exact h0 ▸ List.getElem_mem _
  exact absurd (hperm.mem_iff.mp hmem) (by decide)

/-- C3, amended. Counting sort is a sort below `2^31`: for every array of `int` values
and every `int` worker count `W ≥ 1` with `W * N ≤ 2^31 - 1` (also `W` above the length
`N`, where some ranks own nothing), every rank of the MPI `count_sort` stays inside its
buffers, and the element-wise sum of the buffers of the ranks `0 .. W-1` is a
permutation of the input and is non-decreasing; on `[5,3,3,1]` with two workers it is
`[1,3,3,5]`. -/
theorem C3_count_sort_sorts (W : Nat) (hW : 1 ≤ W) (hint : W ≤ 2 ^ 31 - 1)
    (array : List Int) (harr : ∀ x ∈ array, to_int x = x)
    (hN : W * array.length ≤ 2 ^ 31 - 1) :
    (∃ res, MPI.sorted W array array.length = some res ∧ res.Perm array ∧
      res.Sorted (fun x y => x ≤ y)) ∧
    MPI.sorted 2 [5, 3, 3, 1] 4 = some [1, 3, 3, 5] := by
  obtain ⟨res, hres, hlen, hget⟩ := MPI_sorted_spec hW hint array harr hN
  have h := scatter_sorted_perm array res hlen hget
  exact ⟨⟨res, hres, h.1, h.2⟩, by decide⟩

/-- Witness for C3 (amended): seven workers on the four-element array of the scenario. -/
theorem C3_count_sort_sorts_witness :
    (∃ res, MPI.sorted 7 [5, 3, 3, 1] [5, 3, 3, 1].length = some res ∧
      res.Perm [5, 3, 3, 1] ∧ res.Sorted (fun x y => x ≤ y)) ∧
    MPI.sorted 2 [5, 3, 3, 1] 4 = some [1, 3, 3, 5] :=
  C3_count_sort_sorts 7 (by decide) (by decide) [5, 3, 3, 1] (by decide) (by decide)

/-- C4. Counting sort is stable: for indices `j < i` of the array with
`array[j] == array[i]`, iteration `j` of the scan for `i` increments `count`, iteration
`i` of the scan for `j` does not, and the position computed for `j` is strictly smaller
than the one computed for `i`. -/
theorem C4_count_sort_stable (array : List Int) (i j : Nat) (hji : j < i)
    (hi : i < array.length) (heq : array.getD j 0 = array.getD i 0) :
    count array array.length j < count array array.length i ∧
    (∀ c, count_step array i j c = c + 1) ∧
    (∀ c, count_step array j i c = c) := by
  refine ⟨count_lt_count array (by omega) (Or.inr ⟨heq, hji⟩), ?_, ?_⟩
  · intro c
    unfold count_step
    rw [if_neg (by omega), if_pos ⟨heq, hji⟩]
  · intro c
    unfold count_step
    rw [if_neg (by omega), if_neg (by omega)]

/-- Witness for C4: the two 3s of `[5,3,3,1]`. -/
theorem C4_count_sort_stable_witness :
    count [5, 3, 3, 1] [5, 3, 3, 1].length 1 < count [5, 3, 3, 1] [5, 3, 3, 1].length 2 ∧
    (∀ c, count_step [5, 3, 3, 1] 2 1 c = c + 1) ∧
    (∀ c, count_step [5, 3, 3, 1] 1 2 c = c) :=
  C4_count_sort_stable [5, 3, 3, 1] 2 1 (by decide) (by decide) (by decide)

/-- C5. The rank map is a bijection of `[0, N)`: for every array of length `N` the
`count` computed for an index `i < N` is the number of elements strictly smaller than
`array[i]` plus the number of equal elements at a smaller index, it lies in `[0, N)`,
distinct indices get distinct counts, and every position of `[0, N)` is the count of
some index. -/
theorem C5_rank_map_bijection (array : List Int) :
    (∀ i, i < array.length →
      count array array.length i
        = ((Finset.range array.length).filter
              (fun j => array.getD j 0 < array.getD i 0)).card
          + ((Finset.range i).filter (fun j => array.getD j 0 = array.getD i 0)).card) ∧
    (∀ i, i < array.length → count array array.length i < array.length) ∧
    (∀ i j, i < array.length → j < array.length →
      count array array.length i = count array array.length j → i = j) ∧
    (∀ k, k < array.length → ∃ i, i < array.length ∧ count array array.length i = k) :=
  ⟨fun _ hi => count_eq_smaller_add_equal array hi,
   fun _ hi => count_lt array hi,
   fun _ _ hi hj h => count_injective array hi hj h,
   fun _ hk => count_surjective array hk⟩

/-- Witness for C5: the array `[5,3,3,1]`, whose counts are `3, 1, 2, 0`. -/
theorem C5_rank_map_bijection_witness :
    (∀ i, i < [5, 3, 3, 1].length →
      count [5, 3, 3, 1] [5, 3, 3, 1].length i
        = ((Finset.range [5, 3, 3, 1].length).filter
              (fun j => ([5, 3, 3, 1] : List Int).getD j 0 < [5, 3, 3, 1].getD i 0)).card
          + ((Finset.range i).filter
              (fun j => ([5, 3, 3, 1] : List Int).getD j 0 = [5, 3, 3, 1].getD i 0)).card) ∧
    (∀ i, i < [5, 3, 3, 1].length → count [5, 3, 3, 1] [5, 3, 3, 1].length i
        < [5, 3, 3, 1].length) ∧
    (∀ i j, i < [5, 3, 3, 1].length → j < [5, 3, 3, 1].length →
      count [5, 3, 3, 1] [5, 3, 3, 1].length i = count [5, 3, 3, 1] [5, 3, 3, 1].length j →
      i = j) ∧
    (∀ k, k < [5, 3, 3, 1].length →
      ∃ i, i < [5, 3, 3, 1].length ∧ count [5, 3, 3, 1] [5, 3, 3, 1].length i = k) :=
  C5_rank_map_bijection [5, 3, 3, 1]

/-- C10, as stated, fails above the bound: with `W = 2^30` workers on the array `[5,3]`
no rank visits an index whose `count` is 0, so no rank writes position 0, and the reduced
buffer is not the `sorted_arr = [3,5]` of the OpenMP `count_sort`. -/
theorem C10_sum_merge_eq_assign_merge_counterexample :
    (¬ ∃ r : Nat, r < 2 ^ 30 ∧ ∃ i : Nat,
      (start_int (r : Int) ((2 ^ 30 : Nat) : Int) ((2 : Nat) : Int) ≤ (i : Int) ∧
        (i : Int) < end_int (r : Int) ((2 ^ 30 : Nat) : Int) ((2 : Nat) : Int)) ∧
      count [5, 3] 2 i = 0) ∧
    OpenMP.count_sort 2 1 [5, 3] [0, 0] = [3, 5] ∧
    ¬ (MPI.sorted (2 ^ 30) [5, 3] 2 = some (OpenMP.count_sort 2 1 [5, 3] [0, 0])) := by
  refine ⟨?_, by decide, ?_⟩
  · rintro ⟨r, hr, i, ⟨h1, h2⟩, hc⟩
    exact no_rank_writes_zero r hr i h1 h2 hc
  · intro hres
    obtain ⟨_, h0⟩ := sorted_two_pow_thirty _ hres
    exact absurd h0 (by decide)

/-- C10, amended. Sum-merge equals assignment-merge for counting sort below `2^31`: for
every array of `int` values and every `int` worker count `W ≥ 1` with
`W * N ≤ 2^31 - 1`, the element-wise sum of the `W` buffers is the `sorted_arr` of the
OpenMP `count_sort` on the same input, whatever `sorted_arr` held before, and for every
position `k` below the length there is exactly one rank that writes `k` (its stored
range holds the index `i` with `count i = k` and its buffer holds `array[i]` at `k`),
while every other rank below `W` never writes `k` and its buffer holds 0 there. -/
theorem C10_sum_merge_eq_assign_merge (W : Nat) (hW : 1 ≤ W) (hint : W ≤ 2 ^ 31 - 1)
    (array : List Int) (harr : ∀ x ∈ array, to_int x = x)
    (hN : W * array.length ≤ 2 ^ 31 - 1)
    (thread_count : Nat) (sorted_arr : List Int) (hlen : sorted_arr.length = array.length) :
    MPI.sorted W array array.length
      = some (OpenMP.count_sort array.length thread_count array sorted_arr) ∧
    (∀ k, k < array.length → ∃ r i : Nat,
      r < W ∧
      (start_int r W array.length ≤ (i : Int) ∧ (i : Int) < end_int r W array.length) ∧
      count array array.length i = k ∧
      (∃ buf, MPI.count_sort r W array array.length = some buf ∧
        buf.getD k 0 = array.getD i 0) ∧
      ∀ s : Nat, s < W → s ≠ r →
        (∀ j : Nat, start_int s W array.length ≤ (j : Int) ∧
            (j : Int) < end_int s W array.length →
          count array array.length j ≠ k) ∧
        ∃ buf, MPI.count_sort s W array array.length = some buf ∧ buf.getD k 0 = 0) := by
  have hs : ∀ r : Nat, r < W → start_int r W array.length = (start r W array.length : Int) :=
    fun r hr => start_int_exact (Nat.le_of_lt hr) hN
  have he : ∀ r : Nat, r < W → end_int r W array.length = (end_ r W array.length : Int) :=
    fun r hr => end_int_exact hint hr hN
  constructor
  · obtain ⟨res, hres, hl, hget⟩ := MPI_sorted_spec hW hint array harr hN
    rw [hres]
    congr 1
    exact scatter_unique array _ _ hl
      ((OpenMP_count_sort_length thread_count array sorted_arr).trans hlen) hget
      (fun i hi => OpenMP_count_sort_getD thread_count array sorted_arr hlen hi)
  · intro k hk
    obtain ⟨i, hi, hci⟩ := count_surjective array hk
    obtain ⟨r, hr, hown0⟩ := exists_owner W array.length W i (by rwa [start_np _ _ hW])
    have hown : start r W array.length ≤ i ∧ i < end_ r W array.length := hown0
    refine ⟨r, i, hr, ?_, hci, ?_, ?_⟩
    · rw [hs r hr, he r hr]
      omega
    · obtain ⟨buf, hbuf, _, hget⟩ := MPI_count_sort_spec hint hr array hN
      exact ⟨buf, hbuf, by rw [← hci, hget i hi, if_pos hown]⟩
    · intro s hsW hne
      have hnot : ¬ (start s W array.length ≤ i ∧ i < end_ s W array.length) :=
        fun h => hne (owner_unique W array.length h.1 h.2 hown.1 hown.2)
      constructor
      · intro j hj hcj
        rw [hs s hsW, he s hsW] at hj
        have hj' : start s W array.length ≤ j ∧ j < end_ s W array.length := by omega
        have hjn : j < array.length :=
          lt_of_lt_of_le hj'.2 (start_le_size array.length hW hsW)
        have : j = i := count_injective array hjn hi (hcj.trans hci.symm)
        exact hnot (this ▸ hj')
      · obtain ⟨buf, hbuf, _, hget⟩ := MPI_count_sort_spec hint hsW array hN
        exact ⟨buf, hbuf, by rw [← hci, hget i hi, if_neg hnot]⟩

/-- Witness for C10 (amended): two workers on `[5,3,3,1]`, four threads, `sorted_arr` full
of 9s. -/
theorem C10_sum_merge_eq_assign_merge_witness :
    MPI.sorted 2 [5, 3, 3, 1] [5, 3, 3, 1].length
      = some (OpenMP.count_sort [5, 3, 3, 1].length 4 [5, 3, 3, 1] [9, 9, 9, 9]) ∧
    (∀ k, k < [5, 3, 3, 1].length → ∃ r i : Nat,
      r < 2 ∧
      (start_int r (2 : Nat) [5, 3, 3, 1].length ≤ (i : Int) ∧
        (i : Int) < end_int r (2 : Nat) [5, 3, 3, 1].length) ∧
      count [5, 3, 3, 1] [5, 3, 3, 1].length i = k ∧
      (∃ buf, MPI.count_sort r (2 : Nat) [5, 3, 3, 1] [5, 3, 3, 1].length = some buf ∧
        buf.getD k 0 = ([5, 3, 3, 1] : List Int).getD i 0) ∧
      ∀ s : Nat, s < 2 → s ≠ r →
        (∀ j : Nat, start_int s (2 : Nat) [5, 3, 3, 1].length ≤ (j : Int) ∧
            (j : Int) < end_int s (2 : Nat) [5, 3, 3, 1].length →
          count [5, 3, 3, 1] [5, 3, 3, 1].length j ≠ k) ∧
        ∃ buf, MPI.count_sort s (2 : Nat) [5, 3, 3, 1] [5, 3, 3, 1].length = some buf ∧
          buf.getD k 0 = 0) :=
  C10_sum_merge_eq_assign_merge 2 (by decide) (by decide) [5, 3, 3, 1] (by decide)
    (by decide) 4 [9, 9, 9, 9] (by decide)

/-! ## Character frequency: the kernel as a fold over the buffer -/

/-- The kernel loop, whose counter takes the values `0, 1, ..` without wrapping, applies
the bucket update to the characters of the buffer in order. -/
theorem forLoopM_incr_freq (ix : Nat → Int) (pre l : List Int) (freq : List Int)
    (hix : ∀ k, k < pre.length + l.length → ix k = (k : Int)) :
    (List.range' pre.length l.length).foldlM
        (fun acc (k : Nat) => incr_freq (pre ++ l) (ix k) acc) freq
      = l.foldlM bucket_incr freq := by
  induction l generalizing pre freq with
  | nil => rfl
  | cons x xs ih =>
    rw [List.length_cons, List.range'_succ, List.foldlM_cons, List.foldlM_cons]
    have hget : (pre ++ x :: xs)[pre.length]? = some x := by
      rw [List.getElem?_append_right (Nat.le_refl _), Nat.sub_self, List.getElem?_cons_zero]
    have hx : incr_freq (pre ++ x :: xs) (ix pre.length) freq = bucket_incr freq x := by
      unfold incr_freq
      rw [hix pre.length (by rw [List.length_cons]; omega), if_pos (Int.ofNat_nonneg _),
        Int.toNat_ofNat, hget]
    rw [hx]
    cases bucket_incr freq x with
    | none => rfl
    | some f2 =>
      have := ih (pre ++ [x]) f2 (fun k hk => hix k (by
        rw [List.length_append, List.length_singleton] at hk
        rw [List.length_cons]
        omega))
      rw [List.length_append, List.length_singleton, List.append_assoc] at this
      exact this

/-- On a buffer whose length fits an `int` the MPI kernel, called with the length of the
buffer, is the fold of the bucket update over the buffer. -/
theorem MPI_kernel_eq (file_size : Int) (buffer freq : List Int)
    (h : file_size = (buffer.length : Int)) (hb : buffer.length ≤ 2147483647) :
    MPI.compute_character_frequency file_size buffer freq = buffer.foldlM bucket_incr freq := by
  subst h
  unfold MPI.compute_character_frequency forLoopM
  rw [Int.toNat_ofNat]
  exact forLoopM_incr_freq (fun k => to_int (k : Int)) [] buffer freq (fun k hk => by
    rw [List.length_nil, Nat.zero_add] at hk
    exact to_int_of_range (by omega) (by omega))

theorem bucket_incr_length {freq f2 : List Int} {c : Int} (h : bucket_incr freq c = some f2) :
    f2.length = freq.length := by
  unfold bucket_incr at h
  simp only at h
  split at h
  · rw [← Option.some.inj h, List.length_set]
  · exact absurd h (by simp)

theorem bucket_incr_in_range {freq f2 : List Int} {c : Int}
    (h : bucket_incr freq c = some f2) : 0 ≤ c ∧ c < freq.length := by
  unfold bucket_incr at h
  simp only [BASE, sub_zero] at h
  split at h
  · assumption
  · exact absurd h (by simp)

/-- One character outside the bucket range makes the kernel leave the buffer. -/
theorem foldlM_bucket_incr_none (l : List Int) (freq : List Int) (c : Int) (hc : c ∈ l)
    (hbad : ¬ (0 ≤ c ∧ c < freq.length)) : l.foldlM bucket_incr freq = none := by
  induction l generalizing freq with
  | nil => simp at hc
  | cons x xs ih =>
    rw [List.foldlM_cons]
    cases hx : bucket_incr freq x with
    | none => rfl
    | some f2 =>
      have hlen := bucket_incr_length hx
      rcases List.mem_cons.mp hc with h | h
      · exact absurd (h ▸ bucket_incr_in_range hx) hbad
      · exact ih f2 h (by rwa [hlen])

theorem getD_set_eq (l : List Int) (i v : Nat) (a : Int) (hi : i < l.length) :
    (l.set i a).getD v 0 = if i = v then a else l.getD v 0 := by
  by_cases h : i = v
  · subst h
    rw [if_pos rfl, List.getD_eq_getElem?_getD, List.getElem?_set_self hi, Option.getD_some]
  · rw [if_neg h, List.getD_eq_getElem?_getD, List.getElem?_set_ne h,
      ← List.getD_eq_getElem?_getD]

/-- On characters inside the bucket range, and as long as no `int` bucket can reach
`2^31`, the kernel succeeds and adds to bucket `v` the number of occurrences of `v`. -/
theorem foldlM_bucket_incr_some (l : List Int) (freq : List Int)
    (h : ∀ c ∈ l, 0 ≤ c ∧ c < freq.length)
    (hb : ∀ v : Nat, 0 ≤ freq.getD v 0 ∧ freq.getD v 0 + (l.length : Int) ≤ 2147483647) :
    ∃ f, l.foldlM bucket_incr freq = some f ∧ f.length = freq.length ∧
      ∀ v : Nat, f.getD v 0 = freq.getD v 0 + (l.countP (fun c => c == (v : Int)) : Nat) := by
  induction l generalizing freq with
  | nil => exact ⟨freq, rfl, rfl, fun v => by simp⟩
  | cons x xs ih =>
    obtain ⟨hx0, hx1⟩ := h x (List.mem_cons_self _ _)
    have hxt : x.toNat < freq.length := by omega
    have hbx := hb x.toNat
    rw [List.length_cons] at hbx
    push_cast at hbx
    have hwrap : to_int (freq.getD x.toNat 0 + 1) = freq.getD x.toNat 0 + 1 :=
      to_int_of_range (by omega) (by omega)
    have hstep : bucket_incr freq x
        = some (freq.set x.toNat (freq.getD x.toNat 0 + 1)) := by
      unfold bucket_incr
      simp only [BASE, sub_zero]
      rw [if_pos ⟨hx0, hx1⟩, hwrap]
    have hlen2 : (freq.set x.toNat (freq.getD x.toNat 0 + 1)).length = freq.length :=
      List.length_set _ _ _
    obtain ⟨f, hf, hflen, hfv⟩ := ih (freq.set x.toNat (freq.getD x.toNat 0 + 1))
      (fun c hc => by rw [hlen2]; exact h c (List.mem_cons_of_mem _ hc))
      (fun v => by
        have hbv := hb v
        rw [List.length_cons] at hbv
        push_cast at hbv
        rw [getD_set_eq _ _ _ _ hxt]
        split
        · rename_i e
          subst e
          omega
        · omega)
    refine ⟨f, ?_, hflen.trans hlen2, ?_⟩
    · rw [List.foldlM_cons, hstep]; exact hf
    · intro v
      rw [hfv v, List.countP_cons, getD_set_eq _ _ _ _ hxt]
      by_cases hv : x = (v : Int)
      · have hvt : x.toNat = v := by omega
        have hbq : (x == (v : Int)) = true := by simpa using hv
        rw [if_pos hbq, if_pos hvt, ← hvt]
        push_cast
        ring
      · have hvt : x.toNat ≠ v := by omega
        have hbq : ¬ (x == (v : Int)) = true := by simpa using hv
        rw [if_neg hbq, if_neg hvt, Nat.add_zero]

theorem replicate_zero_getD (n v : Nat) : (List.replicate n (0 : Int)).getD v 0 = 0 := by
  rw [List.getD_eq_getElem?_getD, List.getElem?_replicate]
  split <;> rfl

theorem toChar_of_lt {b : Fin 256} (h : b.val < 128) : toChar b = (b.val : Int) := by
  unfold toChar
  rw [if_pos h]

theorem toChar_neg_of_ge {b : Fin 256} (h : 128 ≤ b.val) : toChar b < 0 := by
  unfold toChar
  rw [if_neg (by omega)]
  have := b.isLt
  omega

/-- The characters of a 7-bit file lie in the bucket range. -/
theorem map_toChar_in_range (file : List (Fin 256)) (h : ∀ b ∈ file, b.val < 128) :
    ∀ c ∈ file.map toChar, 0 ≤ c ∧ c < ((128 : Nat) : Int) := by
  intro c hc
  obtain ⟨b, hb, rfl⟩ := List.mem_map.mp hc
  rw [toChar_of_lt (h b hb)]
  have := h b hb
  omega

theorem countP_toChar (file : List (Fin 256)) (h : ∀ b ∈ file, b.val < 128) (v : Nat) :
    (file.map toChar).countP (fun c => c == (v : Int)) = file.countP (fun b => b.val == v) := by
  rw [List.countP_map]
  apply List.countP_congr
  intro b hb
  simp only [Function.comp, toChar_of_lt (h b hb), beq_iff_eq]
  omega

/-- On the characters of 7-bit bytes, at most `2^31 - 1` of them, the fold of the bucket
update over zeroed buckets succeeds and bucket `v` counts the occurrences of `v`. -/
theorem histogram_of_bytes (bytes : List (Fin 256)) (h7 : ∀ b ∈ bytes, b.val < 128)
    (hlen : bytes.length ≤ 2147483647) :
    ∃ f, (bytes.map toChar).foldlM bucket_incr (List.replicate N 0) = some f ∧
      f.length = N ∧
      ∀ v : Nat, f.getD v 0 = ((bytes.countP (fun b => b.val == v) : Nat) : Int) := by
  obtain ⟨f, hf, hl, hv⟩ := foldlM_bucket_incr_some (bytes.map toChar) (List.replicate N 0)
    (by rw [List.length_replicate]; exact map_toChar_in_range _ h7)
    (fun v => by
      rw [replicate_zero_getD, List.length_map]
      omega)
  refine ⟨f, hf, by rw [hl, List.length_replicate], ?_⟩
  intro v
  rw [hv v, countP_toChar _ h7, replicate_zero_getD, zero_add]

/-! ## Character frequency: ranks and the reduced histogram -/

theorem slice_length {α : Type} {rank np : Nat} (hr : rank < np) (file : List α) :
    ((file.drop (start rank np file.length)).take
        (end_ rank np file.length - start rank np file.length)).length
      = end_ rank np file.length - start rank np file.length := by
  have hend : end_ rank np file.length ≤ file.length :=
    start_le_size file.length (by omega) hr
  rw [List.length_take, List.length_drop]
  omega

/-- For a file whose size fits an `int`, a rank allocates its buffer, reads its exact
slice, and ends with the fold of the bucket update over that slice. -/
theorem MPI_freq_eq {rank np : Nat} (hint : np ≤ 2 ^ 31 - 1) (hr : rank < np)
    (file : List (Fin 256)) (hN : file.length ≤ 2 ^ 31 - 1) :
    MPI.freq rank np file
      = match (((file.drop (start rank np file.length)).take
            (end_ rank np file.length - start rank np file.length)).map toChar).foldlM
          bucket_incr (List.replicate N 0) with
        | some freq => Exit.ok freq
        | none => Exit.fault := by
  have hle : start rank np file.length ≤ end_ rank np file.length :=
    start_mono np file.length (Nat.le_succ rank)
  have hend : end_ rank np file.length ≤ file.length :=
    start_le_size file.length (by omega) hr
  have hsz : ((end_ rank np file.length : Int) - (start rank np file.length : Int))
      = ((end_ rank np file.length - start rank np file.length : Nat) : Int) := by omega
  unfold MPI.freq
  rw [file_size_machine_exact hint hr hN]
  simp only
  rw [if_neg (by omega), if_neg (by omega), hsz, Int.toNat_ofNat, Int.toNat_ofNat]
  rw [MPI_kernel_eq]
  · rw [List.length_map, slice_length hr file]
  · rw [List.length_map, slice_length hr file]
    norm_num at hN
    omega

/-- On a 7-bit file whose size fits an `int` every rank reaches the collective, and
bucket `v` of its buffer counts the occurrences of `v` in its slice. -/
theorem MPI_freq_some {rank np : Nat} (hint : np ≤ 2 ^ 31 - 1) (hr : rank < np)
    (file : List (Fin 256)) (h7 : ∀ b ∈ file, b.val < 128) (hN : file.length ≤ 2 ^ 31 - 1) :
    ∃ f, MPI.freq rank np file = Exit.ok f ∧ f.length = N ∧
      ∀ v : Nat, f.getD v 0
        = ((((file.drop (start rank np file.length)).take
              (end_ rank np file.length - start rank np file.length)).countP
            (fun b => b.val == v) : Nat) : Int) := by
  have hsub : ∀ b ∈ (file.drop (start rank np file.length)).take
      (end_ rank np file.length - start rank np file.length), b.val < 128 :=
    fun b hb => h7 b (List.mem_of_mem_drop (List.mem_of_mem_take hb))
  have hend : end_ rank np file.length ≤ file.length :=
    start_le_size file.length (by omega) hr
  obtain ⟨f, hf, hlen, hv⟩ := histogram_of_bytes _ hsub (by
    rw [slice_length hr file]
    norm_num at hN
    omega)
  refine ⟨f, ?_, hlen, hv⟩
  rw [MPI_freq_eq hint hr file hN, hf]

/-- The slices of the ranks `0 .. k-1` together are the first `start k` bytes. -/
theorem sum_slices {α : Type} (p : α → Bool) (np : Nat) (file : List α) (k : Nat) :
    ((List.range k).map (fun r =>
        ((((file.drop (start r np file.length)).take
            (end_ r np file.length - start r np file.length)).countP p : Nat) : Int))).sum
      = (((file.take (start k np file.length)).countP p : Nat) : Int) := by
  induction k with
  | zero => simp [start_zero]
  | succ k ih =>
    rw [List.range_succ, List.map_append, List.sum_append, ih]
    have hm : start k np file.length ≤ start (k + 1) np file.length :=
      start_mono np file.length (Nat.le_succ k)
    have hsplit : file.take (start (k + 1) np file.length)
        = file.take (start k np file.length)
          ++ (file.drop (start k np file.length)).take
              (end_ k np file.length - start k np file.length) := by
      rw [← List.take_add, end_eq_start_succ, Nat.add_sub_cancel' hm]
    rw [hsplit, List.countP_append]
    simp

theorem sum_indicator (x n : Nat) :
    ((List.range n).map (fun v => if x = v then (1 : Int) else 0)).sum
      = if x < n then 1 else 0 := by
  induction n with
  | zero => simp
  | succ n ih =>
    rw [List.sum_range_succ, ih]
    by_cases h1 : x < n
    · rw [if_pos h1, if_neg (by omega), if_pos (by omega), add_zero]
    · by_cases h2 : x = n
      · rw [if_neg h1, if_pos h2, if_pos (by omega), zero_add]
      · rw [if_neg h1, if_neg h2, if_neg (by omega), add_zero]

/-- The buckets of the specification histogram of a 7-bit file add up to its length. -/
theorem histogram_spec_sum (file : List (Fin 256)) (h7 : ∀ b ∈ file, b.val < 128) :
    (histogram_spec file).sum = (file.length : Int) := by
  unfold histogram_spec
  induction file with
  | nil => simp
  | cons b bs ih =>
    have hb : b.val < N := h7 b (List.mem_cons_self _ _)
    have e : (List.range N).map
          (fun v => (((b :: bs).countP (fun c => c.val == v) : Nat) : Int))
        = (List.range N).map (fun v =>
            ((bs.countP (fun c => c.val == v) : Nat) : Int)
              + (if b.val = v then (1 : Int) else 0)) := by
      apply List.map_congr_left
      intro v _
      rw [List.countP_cons]
      by_cases hv : b.val = v <;> simp [hv]
    rw [e, List.sum_map_add, ih (fun c hc => h7 c (List.mem_cons_of_mem _ hc)),
      sum_indicator, if_pos hb, List.length_cons]
    push_cast
    rfl

theorem histogram_spec_getD (file : List (Fin 256)) {v : Nat} (hv : v < N) :
    (histogram_spec file).getD v 0 = ((file.countP (fun b => b.val == v) : Nat) : Int) := by
  simp [histogram_spec, List.getD_eq_getElem?_getD, hv]

/-- On a 7-bit file whose size fits an `int` the reduced histogram exists for every
worker count and is the histogram of the specification. -/
theorem MPI_total_freq_eq {W : Nat} (hW : 1 ≤ W) (hint : W ≤ 2 ^ 31 - 1)
    (file : List (Fin 256)) (h7 : ∀ b ∈ file, b.val < 128) (hN : file.length ≤ 2 ^ 31 - 1) :
    MPI.total_freq W file = some (histogram_spec file) := by
  unfold MPI.total_freq
  have hall : (List.range W).all
      (fun rank => (MPI.freq rank W file).result.isSome) = true := by
    rw [List.all_eq_true]
    intro r hr
    obtain ⟨f, hf, _⟩ := MPI_freq_some hint (List.mem_range.mp hr) file h7 hN
    rw [hf]; rfl
  rw [if_pos hall]
  congr 1
  unfold MPI_Reduce_int histogram_spec
  apply List.map_congr_left
  intro v _
  have hcongr : (List.range W).map
        (fun (rank : Nat) => ((MPI.freq rank W file).result.getD []).getD v 0)
      = (List.range W).map (fun r =>
          ((((file.drop (start r W file.length)).take
              (end_ r W file.length - start r W file.length)).countP
            (fun b => b.val == v) : Nat) : Int)) := by
    apply List.map_congr_left
    intro r hr
    obtain ⟨f, hf, _, hfv⟩ := MPI_freq_some hint (List.mem_range.mp hr) file h7 hN
    rw [hf]
    exact hfv v
  rw [hcongr, sum_slices, start_np _ _ hW, List.take_length]
  have hc : file.countP (fun b => b.val == v) ≤ file.length := List.countP_le_length _
  norm_num at hN
  exact to_int_of_range (by omega) (by omega)

/-- The loop `for (i = 0; i < n; i++) buf[i] = 0` on a buffer of `n` entries. -/
theorem forLoop_zero {α : Type} [Zero α] (n : Nat) (buf : List α) (h : buf.length = n) :
    forLoop 0 n (fun i rv => rv.set i 0) buf = List.replicate n 0 := by
  unfold forLoop
  apply List.ext_getElem
  · rw [foldl_set_length (fun i => i) (fun _ => (0 : α)), h, List.length_replicate]
  · intro k h1 h2
    rw [List.length_replicate] at h2
    rw [← List.getD_eq_getElem _ 0 h1, List.getElem_replicate]
    exact foldl_set_getD_written (fun i => i) (fun _ => (0 : α)) 0 _ buf k k
      ((mem_range'_iff _ _ _).mpr ⟨Nat.zero_le _, h2⟩) (h ▸ h2) (fun j _ => Iff.rfl)

/-- On a 7-bit file whose size fits an `int` the OpenMP kernel, run on the whole file,
yields the histogram of the specification whatever `freq` held before. -/
theorem OpenMP_kernel_eq (thread_count : Nat) (file : List (Fin 256)) (freq : List Int)
    (hlen : freq.length = N) (h7 : ∀ b ∈ file, b.val < 128)
    (hN : file.length ≤ 2 ^ 31 - 1) :
    OpenMP.compute_character_frequency thread_count file.length (file.map toChar) freq
      = some (histogram_spec file) := by
  norm_num at hN
  unfold OpenMP.compute_character_frequency forLoopM
  simp only
  rw [forLoop_zero N freq hlen, to_int_of_range (by omega) (by omega), Int.toNat_ofNat]
  have hk := forLoopM_incr_freq (fun k => (k : Int)) [] (file.map toChar)
    (List.replicate N 0) (fun _ _ => rfl)
  rw [List.length_map] at hk
  rw [Nat.sub_zero]
  rw [List.length_nil, List.nil_append] at hk
  rw [hk]
  obtain ⟨f, hf, hflen, hv⟩ := histogram_of_bytes file h7 (by omega)
  rw [hf]
  congr 1
  apply List.ext_getElem
  · rw [hflen]; simp [histogram_spec]
  · intro v h1 h2
    rw [← List.getD_eq_getElem _ 0 h1, ← List.getD_eq_getElem _ 0 h2, hv v,
      histogram_spec_getD file (hflen ▸ h1)]

/-! ## Character frequency above the bound -/

/-- One process on a file of `2^31` bytes: the narrowed `end` and `pfile_size` are
`-2^31`, `malloc` fails and the rank ends with `Memory error`. -/
theorem MPI_freq_two_gib (b : Fin 256) :
    MPI.freq 0 1 (List.replicate (2 ^ 31) b) = Exit.memory_error := by
  have e : compute_process_file_size_machine 0 1 ((2 ^ 31 : Nat) : Int)
      = (0, -(2 ^ 31), -(2 ^ 31)) := by decide
  unfold MPI.freq
  rw [List.length_replicate, e]
  simp only
  rw [if_pos (by decide)]

/-- One process on a file of `2^31` bytes: the master gets no histogram. -/
theorem MPI_total_freq_two_gib (b : Fin 256) :
    MPI.total_freq 1 (List.replicate (2 ^ 31) b) = none := by
  have h := MPI_freq_two_gib b
  unfold MPI.total_freq
  rw [if_neg]
  rw [List.all_eq_true]
  intro hall
  have h0 := hall 0 (List.mem_range.mpr (by decide))
  rw [Nat.cast_zero, Nat.cast_one, h] at h0
  exact absurd h0 (by decide)

/-! ## Character frequency: the claims -/

/-- C6, as stated, fails: on the one-byte file `0xC8` with one worker the kernel indexes
`freq[-56]`, so no Global Result whose buckets add up to the domain size 1 is produced;
and on a 7-bit file of `2^31` bytes with one worker `pfile_size` is `-2^31`, the rank ends
with `Memory error`, and no Global Result whose buckets add up to `2^31` is produced. -/
theorem C6_histogram_total_counterexample :
    (¬ ∃ total, MPI.total_freq 1 [200] = some total ∧
        total.sum = ((([200] : List (Fin 256)).length : Nat) : Int)) ∧
    MPI.freq 0 1 (List.replicate (2 ^ 31) 0) = Exit.memory_error ∧
    (¬ ∃ total, MPI.total_freq 1 (List.replicate (2 ^ 31) 0) = some total ∧
        total.sum = (((List.replicate (2 ^ 31) (0 : Fin 256)).length : Nat) : Int)) := by
  refine ⟨?_, MPI_freq_two_gib 0, ?_⟩
  · have h : MPI.total_freq 1 [200] = none := by decide
    rw [h]
    simp
  · rintro ⟨total, h, _⟩
    rw [MPI_total_freq_two_gib 0] at h
    exact Option.noConfusion h

/-- C6, amended. Histogram total on 7-bit input below `2^31`: for every file whose bytes
all lie in `0 .. 127` and whose length `N` fits an `int` (`N ≤ 2^31 - 1`), and every
`int` worker count `W ≥ 1`, the reduced histogram exists, has 128 buckets, and its
buckets add up to `N`; the OpenMP kernel on the whole file gives buckets with the same
total. -/
theorem C6_histogram_total (W : Nat) (hW : 1 ≤ W) (hint : W ≤ 2 ^ 31 - 1)
    (file : List (Fin 256)) (h7 : ∀ b ∈ file, b.val < 128)
    (hN : file.length ≤ 2 ^ 31 - 1) :
    (∃ total, MPI.total_freq W file = some total ∧ total.length = N ∧
      total.sum = (file.length : Int)) ∧
    (∀ thread_count freq, freq.length = N →
      ∃ total, OpenMP.compute_character_frequency thread_count file.length
          (file.map toChar) freq = some total ∧ total.length = N ∧
        total.sum = (file.length : Int)) := by
  have hl : (histogram_spec file).length = N := by simp [histogram_spec]
  constructor
  · exact ⟨histogram_spec file, MPI_total_freq_eq hW hint file h7 hN, hl,
      histogram_spec_sum file h7⟩
  · intro thread_count freq hlen
    exact ⟨histogram_spec file, OpenMP_kernel_eq thread_count file freq hlen h7 hN, hl,
      histogram_spec_sum file h7⟩

set_option maxRecDepth 4000 in
/-- Witness for C6 (amended): the file `"AAB"` with two workers. -/
theorem C6_histogram_total_witness :
    (∃ total, MPI.total_freq 2 [65, 65, 66] = some total ∧ total.length = N ∧
      total.sum = ((([65, 65, 66] : List (Fin 256)).length : Nat) : Int)) ∧
    (∀ thread_count freq, freq.length = N →
      ∃ total, OpenMP.compute_character_frequency thread_count
          ([65, 65, 66] : List (Fin 256)).length
          (([65, 65, 66] : List (Fin 256)).map toChar) freq = some total ∧
        total.length = N ∧
        total.sum = ((([65, 65, 66] : List (Fin 256)).length : Nat) : Int)) :=
  C6_histogram_total 2 (by decide) (by decide) [65, 65, 66] (by decide) (by decide)

/-- C7, as stated, fails above the bound: on the 7-bit file of `2^31` zero bytes a single
worker ends with `Memory error`, so there is no histogram whose bucket 0 holds the
`2^31` occurrences of the byte 0. -/
theorem C7_histogram_worker_independent_counterexample :
    (compute_process_file_size_machine 0 1 (2 ^ 31)).2.2 < 0 ∧
    ¬ ∃ total, MPI.total_freq 1 (List.replicate (2 ^ 31) 0) = some total ∧
        total.getD 0 0 = (((List.replicate (2 ^ 31) (0 : Fin 256)).count 0 : Nat) : Int) := by
  refine ⟨by decide, ?_⟩
  rintro ⟨total, h, _⟩
  rw [MPI_total_freq_two_gib 0] at h
  exact Option.noConfusion h

set_option maxRecDepth 4000 in
/-- C7, amended. The histogram is independent of the worker count below `2^31`: for every
file whose bytes all lie in `0 .. 127` and whose length fits an `int`, and every `int`
worker count `W ≥ 1`, the reduced histogram of `W` workers equals the one of a single
worker, it has 128 buckets, and bucket `v` is the number of occurrences of `v` in the
whole file; on `"AAB"` with two workers bucket 65 is 2, bucket 66 is 1 and every other
bucket is 0. -/
theorem C7_histogram_worker_independent (W : Nat) (hW : 1 ≤ W) (hint : W ≤ 2 ^ 31 - 1)
    (file : List (Fin 256)) (h7 : ∀ b ∈ file, b.val < 128)
    (hN : file.length ≤ 2 ^ 31 - 1) :
    MPI.total_freq W file = MPI.total_freq 1 file ∧
    (∃ total, MPI.total_freq W file = some total ∧ total.length = N ∧
      total = histogram_spec file ∧
      ∀ v : Fin 256, v.val < N → total.getD v.val 0 = (file.count v : Int)) ∧
    MPI.total_freq 2 [65, 65, 66] = some (((List.replicate 128 0).set 65 2).set 66 1) := by
  refine ⟨?_, ⟨histogram_spec file, MPI_total_freq_eq hW hint file h7 hN, ?_, rfl, ?_⟩,
    by decide⟩
  · rw [MPI_total_freq_eq hW hint file h7 hN,
      MPI_total_freq_eq (Nat.le_refl 1) (by decide) file h7 hN]
  · simp [histogram_spec]
  · intro v hv
    rw [histogram_spec_getD file hv, List.count_eq_countP]
    congr 1
    apply List.countP_congr
    intro b _
    simp only [beq_iff_eq]
    exact ⟨fun h => Fin.ext h, fun h => h ▸ rfl⟩

set_option maxRecDepth 4000 in
/-- Witness for C7 (amended): four workers on the file `"AAB"`. -/
theorem C7_histogram_worker_independent_witness :
    MPI.total_freq 4 [65, 65, 66] = MPI.total_freq 1 [65, 65, 66] ∧
    (∃ total, MPI.total_freq 4 [65, 65, 66] = some total ∧ total.length = N ∧
      total = histogram_spec [65, 65, 66] ∧
      ∀ v : Fin 256, v.val < N →
        total.getD v.val 0 = ((([65, 65, 66] : List (Fin 256)).count v : Nat) : Int)) ∧
    MPI.total_freq 2 [65, 65, 66] = some (((List.replicate 128 0).set 65 2).set 66 1) :=
  C7_histogram_worker_independent 4 (by decide) (by decide) [65, 65, 66] (by decide)
    (by decide)

/-- C8, evaluated at the failing input: the byte `0xC8` is stored as the `char` value
`-56`, it is neither rejected nor masked, the bucket index `buffer[0] - BASE` is `-56`,
and both kernels leave the 128-entry buffer. -/
theorem C8_out_of_range_byte_leaves_buffer :
    toChar 200 = -56 ∧
    toChar 200 - BASE = -56 ∧
    bucket_incr (List.replicate N 0) (toChar 200) = none ∧
    MPI.compute_character_frequency 1 [toChar 200] (List.replicate N 0) = none ∧
    OpenMP.compute_character_frequency 1 1 [toChar 200] (List.replicate N 0) = none := by
  decide

/-! ## Matrix times vector -/

theorem foldl_accum_length {α : Type} [Add α] [Zero α] (i : Nat) (t : Nat → α)
    (l : List Nat) (rv : List α) :
    (l.foldl (fun acc j => acc.set i (acc.getD i 0 + t j)) rv).length = rv.length := by
  induction l generalizing rv with
  | nil => rfl
  | cons x xs ih => rw [List.foldl_cons, ih, List.length_set]

/-- The accumulation loop of one row leaves the other entries alone. -/
theorem foldl_accum_getD_ne {α : Type} [Add α] [Zero α] (i : Nat) (t : Nat → α)
    (l : List Nat) (rv : List α) {k : Nat} (hk : k ≠ i) :
    (l.foldl (fun acc j => acc.set i (acc.getD i 0 + t j)) rv).getD k 0 = rv.getD k 0 := by
  induction l generalizing rv with
  | nil => rfl
  | cons x xs ih =>
    rw [List.foldl_cons, ih]
    simp [List.getD_eq_getElem?_getD, List.getElem?_set_ne (Ne.symm hk)]

/-- The accumulation loop of row `i` runs the scalar accumulation on entry `i`. -/
theorem foldl_accum_getD_self {α : Type} [Add α] [Zero α] (i : Nat) (t : Nat → α)
    (l : List Nat) (rv : List α) (hi : i < rv.length) :
    (l.foldl (fun acc j => acc.set i (acc.getD i 0 + t j)) rv).getD i 0
      = l.foldl (fun a j => a + t j) (rv.getD i 0) := by
  induction l generalizing rv with
  | nil => rfl
  | cons x xs ih =>
    rw [List.foldl_cons, List.foldl_cons, ih _ (by rwa [List.length_set])]
    congr 1
    simp [List.getD_eq_getElem?_getD, List.getElem?_set_self hi]

/-- A loop over distinct rows whose body changes only the entry of its row. -/
theorem foldl_rows_getD {α : Type} [Zero α] (F : Nat → List α → List α)
    (G : Nat → α → α)
    (hlen : ∀ i rv, (F i rv).length = rv.length)
    (hne : ∀ i rv k, k ≠ i → (F i rv).getD k 0 = rv.getD k 0)
    (hself : ∀ i rv, i < rv.length → (F i rv).getD i 0 = G i (rv.getD i 0))
    (l : List Nat) (hnd : l.Nodup) (rv : List α) (hl : ∀ i ∈ l, i < rv.length) (k : Nat) :
    (l.foldl (fun acc i => F i acc) rv).length = rv.length ∧
    (l.foldl (fun acc i => F i acc) rv).getD k 0
      = if k ∈ l then G k (rv.getD k 0) else rv.getD k 0 := by
  induction l generalizing rv with
  | nil => simp
  | cons x xs ih =>
    rw [List.foldl_cons]
    obtain ⟨hx, hxs⟩ := List.nodup_cons.mp hnd
    obtain ⟨h1, h2⟩ := ih hxs (F x rv)
      (fun i hi => by rw [hlen]; exact hl i (List.mem_cons_of_mem _ hi))
    refine ⟨h1.trans (hlen x rv), ?_⟩
    rw [h2]
    by_cases hk : k = x
    · subst hk
      rw [if_neg hx, if_pos (List.mem_cons_self _ _),
        hself k rv (hl k (List.mem_cons_self _ _))]
    · have hmem : k ∈ x :: xs ↔ k ∈ xs := by
        rw [List.mem_cons]
        exact ⟨fun h => h.resolve_left hk, Or.inr⟩
      rw [hne x rv k hk]
      by_cases hin : k ∈ xs
      · rw [if_pos hin, if_pos (hmem.mpr hin)]
      · rw [if_neg hin, if_neg (fun h => hin (hmem.mp h))]

/-- For a matrix whose `size * size` entries can be counted by an `int`, the `int` index
`i * size + j` is the exact index. -/
theorem index_exact {i j n : Nat} (hi : i < n) (hj : j < n) (hnn : n * n ≤ 2 ^ 31 - 1) :
    to_int (to_int ((i : Int) * (n : Int)) + (j : Int)) = ((i * n + j : Nat) : Int) ∧
    i * n + j < n * n := by
  norm_num at hnn
  have h1 : i * n + n ≤ n * n := by
    have h : (i + 1) * n ≤ n * n := Nat.mul_le_mul_right n hi
    rw [Nat.add_mul, Nat.one_mul] at h
    exact h
  have hprod : (i : Int) * (n : Int) = ((i * n : Nat) : Int) := by push_cast; rfl
  have hinner : to_int ((i * n : Nat) : Int) = ((i * n : Nat) : Int) :=
    to_int_of_range (by omega) (by omega)
  have houter : to_int (((i * n : Nat) : Int) + (j : Int)) = ((i * n : Nat) : Int) + (j : Int) :=
    to_int_of_range (by omega) (by omega)
  rw [hprod, hinner, houter]
  refine ⟨?_, by omega⟩
  push_cast
  rfl

/-- Below the bounds `multiply` stays inside its buffers and leaves in `result_vector` the
accumulation of the rows `start .. end-1` into a zeroed buffer. -/
theorem MPI_multiply_eq {α : Type} [Add α] [Mul α] [Zero α] {rank np : Nat}
    (hint : np ≤ 2 ^ 31 - 1) (hr : rank < np) (size : Nat)
    (hN : np * size ≤ 2 ^ 31 - 1) (hnn : size * size ≤ 2 ^ 31 - 1)
    (matrix vector result_vector : List α) (hm : matrix.length = size * size)
    (hv : vector.length = size) (hlen : result_vector.length = size) :
    MPI.multiply rank np size matrix vector result_vector
      = some ((List.range' (start rank np size) (end_ rank np size - start rank np size)).foldl
          (fun acc i => (List.range' 0 (size - 0)).foldl
            (fun acc j =>
              acc.set i (acc.getD i 0 + matrix.getD (i * size + j) 0 * vector.getD j 0)) acc)
          (List.replicate size 0)) := by
  have hend : end_ rank np size ≤ size := start_le_size size (by omega) hr
  unfold MPI.multiply
  simp only
  rw [start_int_exact (Nat.le_of_lt hr) hN, end_int_exact hint hr hN, Int.toNat_ofNat,
    forLoop_zero size result_vector hlen, forLoopZ_natCast]
  refine (foldlM_some _
    (fun (rv : List α) (i : Nat) => (List.range' 0 (size - 0)).foldl
      (fun acc j =>
        acc.set i (acc.getD i 0 + matrix.getD (i * size + j) 0 * vector.getD j 0)) rv)
    (fun rv => rv.length = size) _ _ (List.length_replicate _ _) ?_).1
  intro i hi t ht
  have hi' := (mem_range'_iff _ _ _).mp hi
  have hin : i < size := by omega
  beta_reduce
  unfold forLoopM
  refine foldlM_some _
    (fun (rv : List α) (j : Nat) =>
      rv.set i (rv.getD i 0 + matrix.getD (i * size + j) 0 * vector.getD j 0))
    (fun rv => rv.length = size) _ t ht ?_
  intro j hj rv hrv
  have hj' := (mem_range'_iff _ _ _).mp hj
  obtain ⟨hidx, hlt⟩ := index_exact hin hj'.2 hnn
  beta_reduce
  refine ⟨?_, by rw [List.length_set]; exact hrv⟩
  rw [hidx, if_pos ⟨Int.ofNat_nonneg i, by rw [hrv]; exact Int.ofNat_lt.mpr hin,
    Int.ofNat_nonneg _, by rw [hm]; exact Int.ofNat_lt.mpr hlt, by rw [hv]; exact hj'.2⟩,
    Int.toNat_ofNat, Int.toNat_ofNat]

/-- Below the bounds the buffer a rank leaves in `result_vector` has `size` entries: the
dot product of row `k` when the rank owns row `k`, and `0.0` otherwise. -/
theorem MPI_multiply_spec {α : Type} [AddZeroClass α] [Mul α] {rank np : Nat}
    (hint : np ≤ 2 ^ 31 - 1) (hr : rank < np) (size : Nat)
    (hN : np * size ≤ 2 ^ 31 - 1) (hnn : size * size ≤ 2 ^ 31 - 1)
    (matrix vector result_vector : List α) (hm : matrix.length = size * size)
    (hv : vector.length = size) (hlen : result_vector.length = size) :
    ∃ buf, MPI.multiply rank np size matrix vector result_vector = some buf ∧
      buf.length = size ∧
      ∀ k, buf.getD k 0 = if start rank np size ≤ k ∧ k < end_ rank np size
          then dotRow size matrix vector k else 0 := by
  have hend : end_ rank np size ≤ size := start_le_size size (by omega) hr
  refine ⟨_, MPI_multiply_eq hint hr size hN hnn matrix vector result_vector hm hv hlen,
    ?_, ?_⟩
  · exact (foldl_rows_getD
      (fun i rv => (List.range' 0 (size - 0)).foldl
        (fun acc j =>
          acc.set i (acc.getD i 0 + matrix.getD (i * size + j) 0 * vector.getD j 0)) rv)
      (fun i a => (List.range' 0 (size - 0)).foldl
        (fun acc j => acc + matrix.getD (i * size + j) 0 * vector.getD j 0) a)
      (fun i rv => foldl_accum_length i _ _ rv)
      (fun i rv k hk => foldl_accum_getD_ne i _ _ rv hk)
      (fun i rv hi => foldl_accum_getD_self i _ _ rv hi)
      (List.range' (start rank np size) (end_ rank np size - start rank np size))
      (List.nodup_range' _ _)
      (List.replicate size 0)
      (fun i hi => by
        rw [List.length_replicate]
        have := (mem_range'_iff _ _ _).mp hi
        omega)
      0).1.trans (List.length_replicate _ _)
  · intro k
    have h := foldl_rows_getD
      (fun i rv => (List.range' 0 (size - 0)).foldl
        (fun acc j =>
          acc.set i (acc.getD i 0 + matrix.getD (i * size + j) 0 * vector.getD j 0)) rv)
      (fun i a => (List.range' 0 (size - 0)).foldl
        (fun acc j => acc + matrix.getD (i * size + j) 0 * vector.getD j 0) a)
      (fun i rv => foldl_accum_length i _ _ rv)
      (fun i rv k hk => foldl_accum_getD_ne i _ _ rv hk)
      (fun i rv hi => foldl_accum_getD_self i _ _ rv hi)
      (List.range' (start rank np size) (end_ rank np size - start rank np size))
      (List.nodup_range' _ _)
      (List.replicate size 0)
      (fun i hi => by
        rw [List.length_replicate]
        have := (mem_range'_iff _ _ _).mp hi
        omega)
      k
    refine h.2.trans ?_
    have h0 : (List.replicate size (0 : α)).getD k 0 = 0 := by
      rw [List.getD_eq_getElem?_getD, List.getElem?_replicate]
      split <;> rfl
    have hdot : (List.range' 0 (size - 0)).foldl
          (fun acc j => acc + matrix.getD (k * size + j) 0 * vector.getD j 0) 0
        = dotRow size matrix vector k := by
      rw [Nat.sub_zero, ← List.range_eq_range']
      rfl
    rw [h0, hdot]
    by_cases hk : start rank np size ≤ k ∧ k < end_ rank np size
    · rw [if_pos hk, if_pos ((mem_range'_iff _ _ _).mpr hk)]
    · rw [if_neg hk, if_neg (fun h => hk ((mem_range'_iff _ _ _).mp h))]

/-- Below the bounds every rank reaches the collective and the reduced result vector is
the sequential product, for every worker count. -/
theorem MPI_result_vector_eq {α : Type} [AddZeroClass α] [Mul α] {W : Nat} (hW : 1 ≤ W)
    (hint : W ≤ 2 ^ 31 - 1) (size : Nat)
    (hN : W * size ≤ 2 ^ 31 - 1) (hnn : size * size ≤ 2 ^ 31 - 1)
    (matrix vector : List α) (local_result_vector : Nat → List α)
    (hm : matrix.length = size * size) (hv : vector.length = size)
    (hloc : ∀ r, r < W → (local_result_vector r).length = size) :
    MPI.result_vector W size matrix vector local_result_vector
      = some ((List.range size).map (fun i => dotRow size matrix vector i)) := by
  have hall : (List.range W).all (fun rank =>
      (MPI.multiply rank W size matrix vector (local_result_vector rank)).isSome) = true := by
    rw [List.all_eq_true]
    intro r hr
    have hr' := List.mem_range.mp hr
    obtain ⟨buf, hbuf, _⟩ := MPI_multiply_spec hint hr' size hN hnn matrix vector
      (local_result_vector r) hm hv (hloc r hr')
    rw [hbuf]; rfl
  unfold MPI.result_vector
  rw [if_pos hall]
  congr 1
  unfold MPI_Reduce
  apply List.map_congr_left
  intro i hi
  have hcongr : (List.range W).map
        (fun (rank : Nat) => ((MPI.multiply rank W size matrix vector
          (local_result_vector rank)).getD []).getD i 0)
      = (List.range W).map (fun r =>
          if start r W size ≤ i ∧ i < end_ r W size
            then dotRow size matrix vector i else 0) := by
    apply List.map_congr_left
    intro r hr
    have hr' := List.mem_range.mp hr
    obtain ⟨buf, hbuf, _, hget⟩ := MPI_multiply_spec hint hr' size hN hnn matrix vector
      (local_result_vector r) hm hv (hloc r hr')
    rw [hbuf, Option.getD_some, hget i]
  rw [hcongr, sum_owner hW (List.mem_range.mp hi)]

/-- The sequential accumulation of a row is the sum of its products. -/
theorem dotRow_eq_sum {α : Type} [AddMonoid α] [Mul α] (size : Nat) (matrix vector : List α)
    (i : Nat) :
    dotRow size matrix vector i
      = ((List.range size).map
          (fun j => matrix.getD (i * size + j) 0 * vector.getD j 0)).sum := by
  unfold dotRow
  rw [List.sum_eq_foldl, List.foldl_map]

/-! ## Matrix times vector above the bounds -/

/-- An entry whose row no visited index names is still zero in the buffer that `multiply`
leaves, whatever the stored bounds are. -/
theorem MPI_multiply_untouched {α : Type} [Add α] [Mul α] [Zero α] (rank np : Int)
    (size : Nat) (matrix vector result_vector : List α)
    (hlen : result_vector.length = size) (k : Nat)
    (h : ∀ i : Nat, start_int rank np size ≤ (i : Int) →
      (i : Int) < end_int rank np size → i ≠ k)
    (buf : List α)
    (hbuf : MPI.multiply rank np size matrix vector result_vector = some buf) :
    buf.getD k 0 = 0 := by
  unfold MPI.multiply at hbuf
  simp only [Int.toNat_ofNat] at hbuf
  rw [forLoop_zero size result_vector hlen] at hbuf
  refine forLoopZ_invariant _ _ _ (fun t : List α => t.getD k 0 = 0)
    (List.replicate size 0) ?_ ?_ buf hbuf
  · show (List.replicate size (0 : α)).getD k 0 = 0
    rw [List.getD_eq_getElem?_getD, List.getElem?_replicate]
    split <;> rfl
  · intro i h1 h2 t t' ht hb
    unfold forLoopM at hb
    refine foldlM_invariant _ (fun u : List α => u.getD k 0 = 0) _ t ht ?_ t' hb
    intro j _ u u' hu hstep
    beta_reduce at hstep
    split at hstep
    · rename_i hc
      have hne : i.toNat ≠ k := h i.toNat (by omega) (by omega)
      rw [← Option.some.inj hstep, List.getD_eq_getElem?_getD, List.getElem?_set_ne hne,
        ← List.getD_eq_getElem?_getD]
      exact hu
    · exact absurd hstep (by simp)

/-- An entry that no rank computes is zero in the reduced result vector. -/
theorem MPI_result_vector_untouched (np size : Nat) (matrix vector : List Int)
    (local_result_vector : Nat → List Int) (k : Nat)
    (h : ∀ r : Nat, r < np → ∀ buf,
      MPI.multiply r np size matrix vector (local_result_vector r) = some buf →
      buf.getD k 0 = 0)
    (res : List Int)
    (hres : MPI.result_vector np size matrix vector local_result_vector = some res) :
    res.getD k 0 = 0 := by
  unfold MPI.result_vector at hres
  split at hres
  · rw [← Option.some.inj hres]
    by_cases hk : k < size
    · rw [MPI_Reduce_getD _ _ _ hk, List.sum_eq_zero]
      intro x hx
      obtain ⟨r, hr, rfl⟩ := List.mem_map.mp hx
      cases hb : MPI.multiply r np size matrix vector (local_result_vector r) with
      | none => rfl
      | some buf => exact h r (List.mem_range.mp hr) buf hb
    · rw [List.getD_eq_getElem?_getD, List.getElem?_eq_none
        (by rw [MPI_Reduce_length]; omega)]
      rfl
  · exact absurd hres (by simp)

/-- One process on a matrix of size 46341: the `int` index `i * size + j` wraps in the
last row, `matrix` is read at a negative index, and `multiply` leaves its buffers. -/
theorem multiply_index_wraps (matrix vector result_vector : List Int) :
    MPI.multiply 0 1 46341 matrix vector result_vector = none := by
  have hs : start_int 0 1 46341 = 0 := by decide
  have he : end_int 0 1 46341 = 46341 := by decide
  unfold MPI.multiply
  simp only
  rw [hs, he]
  unfold forLoopZ
  refine foldlM_none _ _ _ 46340 (List.mem_range.mpr (by decide)) ?_
  intro t
  unfold forLoopM
  refine foldlM_none _ _ _ 46340 ((mem_range'_iff _ _ _).mpr (by decide)) ?_
  intro u
  beta_reduce
  rw [if_neg]
  intro hc
  exact absurd hc.2.2.1 (by decide)

/-! ## Matrix times vector: the claims -/

/-- C9, as stated, fails above the bounds: with `W = 2^30` workers on the 2-by-2 scenario
matrix the `int` product of the last rank wraps, no rank computes row 1, and the reduced
vector (if any) holds `0` at entry 1 instead of the dot product `7`; and with one worker
on a matrix of size `n = 46341` (`n * n > 2^31 - 1`) the `int` index `i * size + j` wraps,
`multiply` reads `matrix` at a negative index, and there is no reduced vector. -/
theorem C9_mxv_worker_independent_counterexample :
    dotRow 2 [1, 2, 3, 4] [1, 1] 1 = (7 : Int) ∧
    (¬ ∃ res, MPI.result_vector (2 ^ 30) 2 [1, 2, 3, 4] [1, 1] (fun _ => [(0 : Int), 0])
          = some res ∧
        res.getD 1 0 = dotRow 2 [1, 2, 3, 4] [1, 1] 1) ∧
    to_int (to_int (46340 * 46341) + 46340) = -2147479016 ∧
    MPI.result_vector 1 46341 (List.replicate (46341 * 46341) (1 : Int))
      (List.replicate 46341 1) (fun _ => List.replicate 46341 0) = none := by
  refine ⟨by decide, ?_, by decide, ?_⟩
  · rintro ⟨res, hres, h7⟩
    have h0 := MPI_result_vector_untouched (2 ^ 30) 2 [1, 2, 3, 4] [1, 1]
      (fun _ => [(0 : Int), 0]) 1
      (fun r hr buf hbuf => MPI_multiply_untouched r _ 2 [1, 2, 3, 4] [1, 1] [0, 0] rfl 1
        (fun i _ h2 => by
          have := end_int_le_one r hr
          omega) buf hbuf)
      res hres
    rw [h0] at h7
    exact absurd h7 (by decide)
  · unfold MPI.result_vector
    rw [if_neg]
    rw [List.all_eq_true]
    intro hall
    have h0 := hall 0 (List.mem_range.mpr (by decide))
    rw [Nat.cast_zero, Nat.cast_one, Nat.cast_ofNat, multiply_index_wraps] at h0
    exact absurd h0 (by decide)

/-- C9, amended. The matrix-vector product is independent of the worker count below the
`int` bounds (exact arithmetic, any semiring of numbers): for every size `n` with
`n * n ≤ 2^31 - 1`, row-major `n × n` matrix, vector of length `n` and `int` worker count
`W ≥ 1` with `W * n ≤ 2^31 - 1`, whatever the uninitialised local buffers hold, every
rank of `multiply` stays inside its buffers, the element-wise sum over the ranks of their
buffers has length `n`, its entry `i` is the sequential dot product of row `i` with the
vector, i.e. the sum of the products `matrix[i*n+j] * vector[j]`, and it equals the
result of a single worker; `[[1,2],[3,4]]` times `[1,1]` with two workers gives
`[3,7]`. -/
theorem C9_mxv_worker_independent {α : Type} [Semiring α] (W : Nat) (hW : 1 ≤ W)
    (hint : W ≤ 2 ^ 31 - 1) (n : Nat) (hN : W * n ≤ 2 ^ 31 - 1) (hnn : n * n ≤ 2 ^ 31 - 1)
    (matrix vector : List α) (local_result_vector : Nat → List α)
    (hm : matrix.length = n * n) (hv : vector.length = n)
    (hloc : ∀ r, r < W → (local_result_vector r).length = n) :
    (∃ res, MPI.result_vector W n matrix vector local_result_vector = some res ∧
      res.length = n ∧
      ∀ i, i < n →
        res.getD i 0 = dotRow n matrix vector i ∧
        dotRow n matrix vector i
          = ((List.range n).map
              (fun j => matrix.getD (i * n + j) 0 * vector.getD j 0)).sum) ∧
    MPI.result_vector W n matrix vector local_result_vector
      = MPI.result_vector 1 n matrix vector (fun _ => List.replicate n 0) ∧
    MPI.result_vector 2 2 [1, 2, 3, 4] [1, 1] (fun _ => [(0 : Int), 0]) = some [3, 7] := by
  have h := MPI_result_vector_eq hW hint n hN hnn matrix vector local_result_vector hm hv hloc
  have hn1 : 1 * n ≤ 2 ^ 31 - 1 := le_trans (Nat.mul_le_mul_right n hW) hN
  have h1 := MPI_result_vector_eq (Nat.le_refl 1) (by decide) n hn1 hnn matrix vector
    (fun _ => List.replicate n (0 : α)) hm hv (fun _ _ => List.length_replicate _ _)
  refine ⟨⟨_, h, by simp, ?_⟩, h.trans h1.symm, by decide⟩
  intro i hi
  refine ⟨?_, dotRow_eq_sum n matrix vector i⟩
  simp [List.getD_eq_getElem?_getD, hi]

/-- Witness for C9 (amended): the scenario matrix with three workers and garbage in the
local buffers. -/
theorem C9_mxv_worker_independent_witness :
    (∃ res, MPI.result_vector 3 2 [1, 2, 3, 4] [1, 1] (fun r => [(7 : Int), r]) = some res ∧
      res.length = 2 ∧
      ∀ i, i < 2 →
        res.getD i 0 = dotRow 2 [1, 2, 3, 4] [1, 1] i ∧
        dotRow 2 [1, 2, 3, 4] [1, 1] i
          = ((List.range 2).map
              (fun j => ([1, 2, 3, 4] : List Int).getD (i * 2 + j) 0
                * ([1, 1] : List Int).getD j 0)).sum) ∧
    MPI.result_vector 3 2 [1, 2, 3, 4] [1, 1] (fun r => [(7 : Int), r])
      = MPI.result_vector 1 2 [1, 2, 3, 4] [1, 1] (fun _ => List.replicate 2 0) ∧
    MPI.result_vector 2 2 [1, 2, 3, 4] [1, 1] (fun _ => [(0 : Int), 0]) = some [3, 7] :=
  C9_mxv_worker_independent 3 (by decide) (by decide) 2 (by decide) (by decide)
    [1, 2, 3, 4] [1, 1] (fun r => [(7 : Int), r]) (by decide) (by decide) (fun _ _ => rfl)

/-! ## Supplements: thread schedules and bytes outside the alphabet -/

/-- The OpenMP counting sort does not depend on the order in which the threads execute
the iterations. -/
theorem OpenMP_count_sort_schedule (schedule : List Nat) (thread_count : Nat)
    (array sorted_arr : List Int) (hlen : sorted_arr.length = array.length)
    (hs : schedule.Perm (List.range array.length)) :
    OpenMP.count_sort_scheduled schedule array.length array sorted_arr
      = OpenMP.count_sort array.length thread_count array sorted_arr := by
  have hmem : ∀ j, j ∈ schedule ↔ j < array.length :=
    fun j => hs.mem_iff.trans List.mem_range
  apply scatter_unique array
  · unfold OpenMP.count_sort_scheduled
    rw [foldl_set_length, hlen]
  · exact (OpenMP_count_sort_length thread_count array sorted_arr).trans hlen
  · intro i hi
    unfold OpenMP.count_sort_scheduled
    apply foldl_set_getD_written
    · exact (hmem i).mpr hi
    · rw [hlen]; exact count_lt array hi
    · intro j hj
      exact ⟨fun h => count_injective array ((hmem j).mp hj) hi h, fun h => h ▸ rfl⟩
  · exact fun i hi => OpenMP_count_sort_getD thread_count array sorted_arr hlen hi

theorem foldlM_incr_freq_map (buffer : List Int) (order : List Nat) (freq : List Int)
    (h : ∀ i ∈ order, i < buffer.length) :
    order.foldlM (fun acc (i : Nat) => incr_freq buffer (i : Int) acc) freq
      = (order.map (fun i => buffer.getD i 0)).foldlM bucket_incr freq := by
  induction order generalizing freq with
  | nil => rfl
  | cons x xs ih =>
    have hx : x < buffer.length := h x (List.mem_cons_self _ _)
    have hstep : incr_freq buffer (x : Int) freq = bucket_incr freq (buffer.getD x 0) := by
      unfold incr_freq
      rw [if_pos (Int.ofNat_nonneg x), Int.toNat_ofNat, List.getElem?_eq_getElem hx,
        List.getD_eq_getElem buffer 0 hx]
    rw [List.map_cons, List.foldlM_cons, List.foldlM_cons, hstep]
    cases bucket_incr freq (buffer.getD x 0) with
    | none => rfl
    | some f2 => exact ih f2 (fun i hi => h i (List.mem_cons_of_mem _ hi))

theorem map_getD_range (l : List Int) : (List.range l.length).map (fun i => l.getD i 0) = l := by
  apply List.ext_getElem
  · simp
  · intro k h1 h2
    simp [List.getD_eq_getElem?_getD, h2]

/-- On a 7-bit file whose size fits an `int` the OpenMP histogram does not depend on the
order in which the threads enter the critical section. -/
theorem OpenMP_histogram_schedule (schedule : List Nat) (file : List (Fin 256))
    (freq : List Int) (hlen : freq.length = N) (h7 : ∀ b ∈ file, b.val < 128)
    (hN : file.length ≤ 2 ^ 31 - 1)
    (hs : schedule.Perm (List.range file.length)) :
    OpenMP.compute_character_frequency_scheduled schedule (file.map toChar) freq
      = some (histogram_spec file) := by
  norm_num at hN
  have hperm : (schedule.map (fun i => (file.map toChar).getD i 0)).Perm (file.map toChar) := by
    have h := hs.map (fun i => (file.map toChar).getD i 0)
    have e := map_getD_range (file.map toChar)
    rw [List.length_map] at e
    rwa [e] at h
  have hsl : schedule.length = file.length := by rw [hs.length_eq, List.length_range]
  unfold OpenMP.compute_character_frequency_scheduled
  simp only
  rw [forLoop_zero N freq hlen, foldlM_incr_freq_map]
  · obtain ⟨f, hf, hflen, hv⟩ := foldlM_bucket_incr_some
      (schedule.map (fun i => (file.map toChar).getD i 0)) (List.replicate N 0)
      (fun c hc => by
        rw [List.length_replicate]
        exact map_toChar_in_range _ h7 c (hperm.mem_iff.mp hc))
      (fun v => by
        rw [replicate_zero_getD, List.length_map, hsl]
        omega)
    rw [hf]
    congr 1
    rw [List.length_replicate] at hflen
    apply List.ext_getElem
    · rw [hflen]; simp [histogram_spec]
    · intro v h1 h2
      rw [← List.getD_eq_getElem _ 0 h1, ← List.getD_eq_getElem _ 0 h2, hv v,
        histogram_spec_getD file (hflen ▸ h1), hperm.countP_eq, countP_toChar _ h7,
        replicate_zero_getD, zero_add]
  · intro i hi
    rw [List.length_map]
    exact List.mem_range.mp (hs.mem_iff.mp hi)

/-- Every file whose size fits an `int` and that holds a byte outside `0 .. 127` makes the
kernel of some rank index the bucket buffer out of bounds, whatever the worker count. -/
theorem MPI_total_freq_none {W : Nat} (hW : 1 ≤ W) (hint : W ≤ 2 ^ 31 - 1)
    (file : List (Fin 256)) (hN : file.length ≤ 2 ^ 31 - 1) (b : Fin 256)
    (hb : b ∈ file) (hhi : 128 ≤ b.val) : MPI.total_freq W file = none := by
  obtain ⟨i, hi, hib⟩ := List.mem_iff_getElem.mp hb
  obtain ⟨r, hr, h1, h2⟩ := exists_owner W file.length W i (by rwa [start_np _ _ hW])
  have hmem : b ∈ (file.drop (start r W file.length)).take
      (end_ r W file.length - start r W file.length) := by
    rw [List.mem_iff_getElem?]
    refine ⟨i - start r W file.length, ?_⟩
    rw [List.getElem?_take_of_lt (by rw [end_eq_start_succ]; omega), List.getElem?_drop,
      Nat.add_sub_cancel' h1, List.getElem?_eq_getElem hi, hib]
  have hnone : MPI.freq r W file = Exit.fault := by
    rw [MPI_freq_eq hint hr file hN]
    rw [foldlM_bucket_incr_none _ _ (toChar b) (List.mem_map_of_mem _ hmem)]
    have := toChar_neg_of_ge hhi
    omega
  unfold MPI.total_freq
  rw [if_neg]
  intro hall
  rw [List.all_eq_true] at hall
  have := hall r (List.mem_range.mpr hr)
  rw [hnone] at this
  exact absurd this (by decide)

/-! ## The partitioner in machine arithmetic: the claim -/

/-- C11. Partition bounds in machine arithmetic below `2^31`: for `int` values `np ≥ 1`,
`rank` in `[0, np)` and a size `N ≥ 0` with `np * N ≤ 2^31 - 1`, the `int` products
`rank * size` and `(rank + 1) * size` of `count_sort` and `multiply` do not wrap, the
stored `start` and `end` (there, and in `compute_process_file_size` with its `long`
product narrowed to `int`) are the exact `floor(rank*N/np)` and `floor((rank+1)*N/np)`,
and `pfile_size` is the exact, non-negative slice length `end - start`.  The bound
matters: at `np * N = 2^31` (`np = 2`, `rank = 1`, `N = 2^30`) the `int` product wraps and
`end` becomes `-2^30`, and a file of `2^31` bytes read by one process gets
`end = pfile_size = -2^31`. -/
theorem C11_partition_machine_exact (np rank N : Nat) (hnp : 1 ≤ np)
    (hint : np ≤ 2 ^ 31 - 1) (hr : rank < np) (hN : np * N ≤ 2 ^ 31 - 1) :
    to_int ((rank : Int) * (N : Int)) = ((rank * N : Nat) : Int) ∧
    to_int (to_int ((rank : Int) + 1) * (N : Int)) = (((rank + 1) * N : Nat) : Int) ∧
    start_int rank np N = (start rank np N : Int) ∧
    end_int rank np N = (end_ rank np N : Int) ∧
    compute_process_file_size_machine rank np N
      = ((start rank np N : Int), (end_ rank np N : Int),
          (end_ rank np N : Int) - (start rank np N : Int)) ∧
    (0 : Int) ≤ (compute_process_file_size_machine rank np N).2.2 ∧
    (compute_process_file_size_machine rank np N).2.2
      = (((compute_process_file_size rank np N).2.2 : Nat) : Int) ∧
    end_int 1 2 (2 ^ 30) = -(2 ^ 30) ∧
    compute_process_file_size_machine 0 1 (2 ^ 31) = (0, -(2 ^ 31), -(2 ^ 31)) := by
  obtain ⟨hp1, hp2⟩ := products_fit hr hN
  have hle : start rank np N ≤ end_ rank np N := start_mono np N (Nat.le_succ rank)
  have hend : end_ rank np N ≤ 2147483647 := by
    have : end_ rank np N ≤ (rank + 1) * N := Nat.div_le_self _ _
    omega
  have hrank : to_int ((rank : Int) + 1) = ((rank + 1 : Nat) : Int) := by
    norm_num at hint
    rw [to_int_of_range (by omega) (by omega)]
    push_cast
    rfl
  have hprod0 : (rank : Int) * (N : Int) = ((rank * N : Nat) : Int) := by push_cast; rfl
  have hprod1 : ((rank + 1 : Nat) : Int) * (N : Int) = (((rank + 1) * N : Nat) : Int) := by
    push_cast; rfl
  have hstart : start_int rank np N = (start rank np N : Int) := by
    unfold start_int start
    rw [hprod0]
    exact int_quot _ _ hp1
  have hend_int : end_int rank np N = (end_ rank np N : Int) := by
    unfold end_int end_
    rw [hrank, hprod1]
    exact int_quot _ _ hp2
  have hmach : compute_process_file_size_machine rank np N
      = ((start rank np N : Int), (end_ rank np N : Int),
          (end_ rank np N : Int) - (start rank np N : Int)) := by
    unfold compute_process_file_size_machine
    simp only
    rw [hrank, hprod0, hprod1, long_quot _ _ hp1, long_quot _ _ hp2]
    have e0 : ((rank * N / np : Nat) : Int) = (start rank np N : Int) := rfl
    have e1 : (((rank + 1) * N / np : Nat) : Int) = (end_ rank np N : Int) := rfl
    rw [e0, e1, to_int_of_range (by omega) (by omega),
      to_long_of_range (by omega) (by omega)]
  refine ⟨?_, ?_, hstart, hend_int, hmach, ?_, ?_, by decide, by decide⟩
  · rw [hprod0]
    exact to_int_of_range (by omega) (by omega)
  · rw [hrank, hprod1]
    exact to_int_of_range (by omega) (by omega)
  · rw [hmach]
    show (0 : Int) ≤ (end_ rank np N : Int) - (start rank np N : Int)
    omega
  · rw [hmach]
    show (end_ rank np N : Int) - (start rank np N : Int)
      = ((end_ rank np N - start rank np N : Nat) : Int)
    omega

/-- Witness for C11: rank 2 of three processes on seven items. -/
theorem C11_partition_machine_exact_witness :
    to_int (((2 : Nat) : Int) * ((7 : Nat) : Int)) = ((2 * 7 : Nat) : Int) ∧
    to_int (to_int (((2 : Nat) : Int) + 1) * ((7 : Nat) : Int)) = (((2 + 1) * 7 : Nat) : Int) ∧
    start_int (2 : Nat) (3 : Nat) (7 : Nat) = (start 2 3 7 : Int) ∧
    end_int (2 : Nat) (3 : Nat) (7 : Nat) = (end_ 2 3 7 : Int) ∧
    compute_process_file_size_machine (2 : Nat) (3 : Nat) (7 : Nat)
      = ((start 2 3 7 : Int), (end_ 2 3 7 : Int), (end_ 2 3 7 : Int) - (start 2 3 7 : Int)) ∧
    (0 : Int) ≤ (compute_process_file_size_machine (2 : Nat) (3 : Nat) (7 : Nat)).2.2 ∧
    (compute_process_file_size_machine (2 : Nat) (3 : Nat) (7 : Nat)).2.2
      = (((compute_process_file_size 2 3 7).2.2 : Nat) : Int) ∧
    end_int 1 2 (2 ^ 30) = -(2 ^ 30) ∧
    compute_process_file_size_machine 0 1 (2 ^ 31) = (0, -(2 ^ 31), -(2 ^ 31)) :=
  C11_partition_machine_exact 3 2 7 (by decide) (by decide) (by decide) (by decide)

/-! ## Supplement: the `int` product above the bound -/

/-- From `np * size = 2^31` on, the `int` product `(rank + 1) * size` of the last rank
wraps and its `end` is no longer the exact bound `size`. -/
theorem end_int_last_rank_wraps (np N : Nat) (hnp : 1 ≤ np) (hint : np ≤ 2 ^ 31 - 1)
    (hsize : N ≤ 2 ^ 31 - 1) (hbig : 2 ^ 31 ≤ np * N) :
    end_ (np - 1) np N = N ∧
    end_int ((np - 1 : Nat) : Int) (np : Int) (N : Int) ≠ ((end_ (np - 1) np N : Nat) : Int) := by
  norm_num at hint hsize hbig
  have hexact : end_ (np - 1) np N = N := by
    rw [end_eq_start_succ, Nat.sub_add_cancel hnp, start_np np N hnp]
  refine ⟨hexact, ?_⟩
  rw [hexact]
  have hrank : to_int (((np - 1 : Nat) : Int) + 1) = (np : Int) := by
    have e : ((np - 1 : Nat) : Int) + 1 = (np : Int) := by omega
    rw [e]
    exact to_int_of_range (by omega) (by omega)
  unfold end_int
  rw [hrank]
  obtain ⟨w1, w2⟩ := to_int_range ((np : Int) * (N : Int))
  obtain ⟨q1, q2, qneg, qpos⟩ := tdiv_bounds (show (0 : Int) < (np : Int) by omega) w1 w2
  rw [to_int_of_range q1 q2]
  have hbigZ : (2147483648 : Int) ≤ (N : Int) * (np : Int) := by
    have : ((2147483648 : Nat) : Int) ≤ ((np * N : Nat) : Int) := Int.ofNat_le.mpr hbig
    push_cast at this
    rw [mul_comm] at this
    exact this
  by_cases hw : 0 ≤ to_int ((np : Int) * (N : Int))
  · rw [qpos hw]
    have hlt : to_int ((np : Int) * (N : Int)) / (np : Int) < (N : Int) :=
      Int.ediv_lt_of_lt_mul (by omega) (by omega)
    omega
  · have := qneg (by omega)
    have hNpos : 0 < N := by
      rcases Nat.eq_zero_or_pos N with h | h
      · rw [h, Nat.mul_zero] at hbig
        omega
      · exact h
    omega


end HPC
